import Mathlib

/-!
KDFa of tpm2-tools (`lib/tpm_kdfa.c`)

A shallow embedding of `tpm_kdfa` and of the helpers it calls, followed by the
properties of the derivation that are settled against it.

Bytes are natural numbers below 256, byte buffers are lists of bytes.  The
OpenSSL HMAC calls are an external library: the embedding records every call
made on the context in a chronological log, and the library answers each call
as a function of that log (the most general deterministic library).
-/

namespace TpmKdfa

/-! ## Data model -/

/-- The message digests of OpenSSL that the source can select
(`EVP_sha1()`, `EVP_sha256()`, `EVP_sha384()`, `EVP_sha512()`). -/
inductive EVP_MD
  | sha1
  | sha256
  | sha384
  | sha512
  deriving DecidableEq, Repr

/-- Output length in bytes of an HMAC over the digest (`EVP_MD_size`). -/
def EVP_MD.size : EVP_MD → Nat
  | .sha1 => 20
  | .sha256 => 32
  | .sha384 => 48
  | .sha512 => 64

/-- TCG algorithm identifier of SHA-1 (`TPM2_ALG_SHA1` of the TSS2 headers). -/
def TPM2_ALG_SHA1 : Nat := 0x0004

/-- TCG algorithm identifier of SHA-256 (`TPM2_ALG_SHA256`). -/
def TPM2_ALG_SHA256 : Nat := 0x000B

/-- TCG algorithm identifier of SHA-384 (`TPM2_ALG_SHA384`). -/
def TPM2_ALG_SHA384 : Nat := 0x000C

/-- TCG algorithm identifier of SHA-512 (`TPM2_ALG_SHA512`). -/
def TPM2_ALG_SHA512 : Nat := 0x000D

/-- The `switch` of `tpm_algorithm_to_openssl_digest`; `none` is the `NULL`
of the `default` branch. -/
def tpm_algorithm_to_openssl_digest (algorithm : Nat) : Option EVP_MD :=
  if algorithm = TPM2_ALG_SHA1 then some EVP_MD.sha1
  else if algorithm = TPM2_ALG_SHA256 then some EVP_MD.sha256
  else if algorithm = TPM2_ALG_SHA384 then some EVP_MD.sha384
  else if algorithm = TPM2_ALG_SHA512 then some EVP_MD.sha512
  else none

/-- The return codes `tpm_kdfa` assigns to `rval` or returns directly.  They
are kept symbolic; in the TSS2 headers they are four different numbers. -/
inductive TSS2_RC
  | TPM2_RC_SUCCESS
  | TPM2_RC_HASH
  | TPM2_RC_MEMORY
  | TSS2_SYS_RC_BAD_VALUE
  deriving DecidableEq, Repr

/-- One call into the HMAC library on the context of a derivation.
`HMAC_CTX_new` stands for `hmac_alloc`, `HMAC_CTX_free` for `hmac_del`. -/
inductive HmacCall
  | HMAC_CTX_new
  | HMAC_Init_ex (key : List Nat) (md : EVP_MD)
  | HMAC_Update (data : List Nat)
  | HMAC_Final
  | HMAC_CTX_free
  deriving DecidableEq, Repr

/-- What is outside `tpm_kdfa.c`: the byte order of the host
(`tpm2_util_is_big_endian()`), the capacity of a `TPM2B_MAX_BUFFER` (1024
bytes in the TSS2 headers), and the HMAC library.  `hmacOk log` is whether
the last call of `log` succeeds after the calls before it; `hmacOut log` is
the block `HMAC_Final` writes when it is the last call of `log` (OpenSSL
writes at most `EVP_MAX_MD_SIZE = 64` bytes, the size of the buffer of a
`TPM2B_DIGEST`). -/
structure Host where
  is_big_endian : Bool
  capacity : Nat
  hmacOk : List HmacCall → Bool
  hmacOut : List HmacCall → List Nat

/-- A sized byte buffer (`TPM2B`, `TPM2B_MAX_BUFFER`): the `size` field and
the bytes of `buffer`. -/
structure TPM2B where
  size : Nat
  buffer : List Nat
  deriving DecidableEq, Repr

/-- The bytes a sized buffer holds: the first `size` bytes of `buffer`. -/
def TPM2B.bytes (b : TPM2B) : List Nat :=
  b.buffer.take b.size

/-- Number of bytes in the buffer of a `TPM2B_DIGEST` (`sizeof(TPMU_HA)`, the
largest supported digest). -/
def TPM2B_DIGEST_BUFFER : Nat := 64

/-! ## Helpers of `tpm_kdfa` -/

/-- Modelled from the spec: `tpm2_util_endian_swap_32` is declared in
`tpm2_util.h` and is not part of the source file; the spec calls it the
explicit byte swap of a 32-bit value. -/
def tpm2_util_endian_swap_32 (data : Nat) : Nat :=
  (data % 256) * 16777216 + (data / 256 % 256) * 65536
    + (data / 65536 % 256) * 256 + (data / 16777216 % 256)

/-- The store `*(UINT32 *)ptr = v`: the four bytes of `v` in the byte order of
the host, lowest address first. -/
def store_u32 (bigEndian : Bool) (v : Nat) : List Nat :=
  if bigEndian then [v / 16777216 % 256, v / 65536 % 256, v / 256 % 256, v % 256]
  else [v % 256, v / 256 % 256, v / 65536 % 256, v / 16777216 % 256]

/-- The two lines `if (!tpm2_util_is_big_endian()) x = swap(v); else x = v;`
followed by the native store of `x`. -/
def swizzled_bytes (P : Host) (v : Nat) : List Nat :=
  store_u32 P.is_big_endian
    (if !P.is_big_endian then tpm2_util_endian_swap_32 v else v)

/-- The 4-byte big-endian encoding of a 32-bit value, most significant byte
first. -/
def BE32 (v : Nat) : List Nat :=
  [v / 16777216 % 256, v / 65536 % 256, v / 256 % 256, v % 256]

/-- The scan `for(i = 0; label[i] != 0; i++);`: index of the first zero byte.
A label is given by the bytes before its terminator. -/
def label_scan (label : List Nat) : Nat :=
  (label.takeWhile (fun c => c != 0)).length

/-- The read `label[i]`: the bytes of the label, then the terminating zero. -/
def label_at (label : List Nat) (i : Nat) : Nat :=
  label.getD i 0

/-- The value of `tpm2bLabel.size = i+1` (a `UINT16`). -/
def label_size (label : List Nat) : Nat :=
  (label_scan label + 1) % 65536

/-- The bytes the copy loop `tpm2bLabel.buffer[i] = label[i]` stores. -/
def label_copy (label : List Nat) : List Nat :=
  (List.range (label_size label)).map (label_at label)

/-- Modelled from the spec: `tpm2_util_concat_buffer` is declared in
`tpm2_util.h` and is not part of the source file; the spec says the append
fails if it would exceed the maximum capacity of the output buffer.  On
success the block is copied to `buffer[size ..]` and `size` grows by its
length. -/
def tpm2_util_concat_buffer (capacity : Nat) (result : TPM2B) (append : List Nat) :
    Bool × TPM2B :=
  if result.size + append.length > capacity then (false, result)
  else (true,
    { size := result.size + append.length
      buffer := result.buffer.take result.size ++ append
        ++ result.buffer.drop (result.size + append.length) })

/-- The loop `for(c=0; c < j; c++)` over `bufferList`: one `HMAC_Update` per
buffer, stopping at the first that fails (`goto err`). -/
def hmac_update_list (P : Host) : List (List Nat) → List HmacCall → Bool × List HmacCall
  | [], log => (true, log)
  | d :: ds, log =>
    if P.hmacOk (log ++ [HmacCall.HMAC_Update d]) then
      hmac_update_list P ds (log ++ [HmacCall.HMAC_Update d])
    else (false, log ++ [HmacCall.HMAC_Update d])

/-- The variables the `while` loop reads and writes: the output buffer, the
counter `i`, and the calls made on the HMAC context so far. -/
structure LoopState where
  resultKey : TPM2B
  i : Nat
  log : List HmacCall
  deriving DecidableEq, Repr

/-- Where control is after the loop body or after the loop. -/
inductive Step
  | next (s : LoopState)
  | err (rval : TSS2_RC) (s : LoopState)
  deriving DecidableEq, Repr

/-- One execution of the body of `while( resultKey->size < bytes )`.  The
body reads `i` and never assigns it. -/
def loop_body (P : Host) (tpm2bLabel contextU contextV tpm2bBits : List Nat)
    (s : LoopState) : Step :=
  let tpm2b_i_2 := swizzled_bytes P s.i
  let bufferList := [tpm2b_i_2, tpm2bLabel, contextU, contextV, tpm2bBits]
  match hmac_update_list P bufferList s.log with
  | (false, log) => Step.err TSS2_RC.TPM2_RC_MEMORY { s with log := log }
  | (true, log) =>
    let logF := log ++ [HmacCall.HMAC_Final]
    if !P.hmacOk logF then Step.err TSS2_RC.TPM2_RC_MEMORY { s with log := logF }
    else
      let tmpResult := P.hmacOut logF
      match tpm2_util_concat_buffer P.capacity s.resultKey tmpResult with
      | (false, r) =>
        Step.err TSS2_RC.TSS2_SYS_RC_BAD_VALUE { s with resultKey := r, log := logF }
      | (true, r) => Step.next { s with resultKey := r, log := logF }

/-- The loop `while( resultKey->size < bytes )`, run for at most `fuel`
executions of its body; `none` when the fuel does not reach the exit. -/
def kdfa_while (P : Host) (tpm2bLabel contextU contextV tpm2bBits : List Nat)
    (bytes : Nat) : Nat → LoopState → Option Step
  | 0, s => if s.resultKey.size < bytes then none else some (Step.next s)
  | fuel + 1, s =>
    if s.resultKey.size < bytes then
      match loop_body P tpm2bLabel contextU contextV tpm2bBits s with
      | Step.next s1 => kdfa_while P tpm2bLabel contextU contextV tpm2bBits bytes fuel s1
      | Step.err rval s1 => some (Step.err rval s1)
    else some (Step.next s)

/-- How a call of `tpm_kdfa` ends. -/
inductive Outcome
  | returned (rval : TSS2_RC) (resultKey : TPM2B) (log : List HmacCall)
  | label_overflow
  | out_of_fuel
  deriving DecidableEq, Repr

/-- The function `tpm_kdfa`.  `resultKey` is the output buffer as the caller
passes it; the outcome carries the return code, the output buffer and the
HMAC calls made.  `label_overflow` is the copy loop storing past the end of
`tpm2bLabel.buffer` (behaviour the C standard leaves undefined), and
`out_of_fuel` a loop that needs more than `fuel` iterations. -/
def tpm_kdfa (P : Host) (fuel : Nat) (hashAlg : Nat) (key label contextU contextV : List Nat)
    (bits : Nat) (resultKey : TPM2B) : Outcome :=
  let bytes := bits / 8
  let resultKey : TPM2B := { resultKey with size := 0 }
  let tpm2bBits := swizzled_bytes P bits
  if label_size label > TPM2B_DIGEST_BUFFER then Outcome.label_overflow
  else
    let tpm2bLabel := label_copy label
    let i := 1
    match tpm_algorithm_to_openssl_digest hashAlg with
    | none => Outcome.returned TSS2_RC.TPM2_RC_HASH resultKey []
    | some md =>
      let log := [HmacCall.HMAC_CTX_new]
      if !P.hmacOk log then Outcome.returned TSS2_RC.TPM2_RC_MEMORY resultKey log
      else
        let log := log ++ [HmacCall.HMAC_Init_ex key md]
        if !P.hmacOk log then
          Outcome.returned TSS2_RC.TPM2_RC_MEMORY resultKey (log ++ [HmacCall.HMAC_CTX_free])
        else
          match kdfa_while P tpm2bLabel contextU contextV tpm2bBits bytes fuel
              { resultKey := resultKey, i := i, log := log } with
          | none => Outcome.out_of_fuel
          | some (Step.err rval s) =>
            Outcome.returned rval s.resultKey (s.log ++ [HmacCall.HMAC_CTX_free])
          | some (Step.next s) =>
            Outcome.returned TSS2_RC.TPM2_RC_SUCCESS { s.resultKey with size := bytes }
              (s.log ++ [HmacCall.HMAC_CTX_free])

/-! ## A reference HMAC library -/

/-- The key and digest of the last `HMAC_Init_ex` of a log. -/
def last_init : List HmacCall → Option (List Nat × EVP_MD)
  | [] => none
  | HmacCall.HMAC_Init_ex key md :: rest =>
    match last_init rest with
    | some r => some r
    | none => some (key, md)
  | _ :: rest => last_init rest

/-- The bytes passed to `HMAC_Update` in a log, in order. -/
def fed_bytes : List HmacCall → List Nat
  | [] => []
  | HmacCall.HMAC_Update d :: rest => d ++ fed_bytes rest
  | _ :: rest => fed_bytes rest

/-- A library in which every call succeeds and `HMAC_Final` writes
`mac md key m`, where `key` and `md` are those of the initialisation and `m`
is everything passed to `HMAC_Update` so far. -/
def ideal_host (bigEndian : Bool) (capacity : Nat)
    (mac : EVP_MD → List Nat → List Nat → List Nat) : Host where
  is_big_endian := bigEndian
  capacity := capacity
  hmacOk := fun _ => true
  hmacOut := fun log =>
    match last_init log with
    | some (key, md) => mac md key (fed_bytes log)
    | none => []

/-- A stand-in for an HMAC: as many bytes as the digest has, each the sum of
the key and message bytes plus its index, modulo 256. -/
def toy_mac (md : EVP_MD) (key msg : List Nat) : List Nat :=
  (List.range md.size).map (fun j => (key.sum + msg.sum + j) % 256)

/-! ## Notions used to state the properties -/

/-- Every call of the HMAC library succeeds. -/
def Host.all_ok (P : Host) : Prop :=
  ∀ log, P.hmacOk log = true

/-- The library computes `mac`: after an allocation, an initialisation with
`key` and `md` and updates with the buffers `ds`, `HMAC_Final` writes
`mac md key` of the concatenation of `ds`. -/
def Host.computes (P : Host) (mac : EVP_MD → List Nat → List Nat → List Nat) : Prop :=
  ∀ (key : List Nat) (md : EVP_MD) (ds : List (List Nat)),
    P.hmacOut ([HmacCall.HMAC_CTX_new, HmacCall.HMAC_Init_ex key md]
        ++ ds.map HmacCall.HMAC_Update ++ [HmacCall.HMAC_Final])
      = mac md key ds.flatten

/-- The state in which `tpm_kdfa` enters its loop. -/
def loop_entry (key : List Nat) (md : EVP_MD) (rk0 : TPM2B) : LoopState :=
  { resultKey := { size := 0, buffer := rk0.buffer }, i := 1,
    log := [HmacCall.HMAC_CTX_new, HmacCall.HMAC_Init_ex key md] }

/-- The five `HMAC_Update` calls of one iteration, in the order of `bufferList`. -/
def iteration_updates (P : Host) (tpm2bLabel contextU contextV tpm2bBits : List Nat)
    (i : Nat) : List HmacCall :=
  [HmacCall.HMAC_Update (swizzled_bytes P i), HmacCall.HMAC_Update tpm2bLabel,
    HmacCall.HMAC_Update contextU, HmacCall.HMAC_Update contextV,
    HmacCall.HMAC_Update tpm2bBits]

/-- The return code of a call that returned. -/
def Outcome.rval : Outcome → Option TSS2_RC
  | Outcome.returned r _ _ => some r
  | _ => none

/-- The `size` field of the output buffer of a call that returned. -/
def Outcome.size : Outcome → Option Nat
  | Outcome.returned _ rk _ => some rk.size
  | _ => none

/-- The HMAC calls of a call that returned. -/
def Outcome.calls : Outcome → List HmacCall
  | Outcome.returned _ _ log => log
  | _ => []

/-- The messages of a log, one per `HMAC_Final`: the bytes passed to
`HMAC_Update` since the initialisation or the previous `HMAC_Final`, given the
bytes `acc` already passed. -/
def messages_from : List HmacCall → List Nat → List (List Nat)
  | [], _ => []
  | HmacCall.HMAC_Update d :: rest, acc => messages_from rest (acc ++ d)
  | HmacCall.HMAC_Final :: rest, acc => acc :: messages_from rest []
  | _ :: rest, acc => messages_from rest acc

/-- The message fed to the HMAC in each iteration of a log, in order. -/
def messages_fed (log : List HmacCall) : List (List Nat) :=
  messages_from log []

/-- The reference library in which the `n`-th call on the context (counted
from 1, the allocation being the first) fails. -/
def failing_host (bigEndian : Bool) (capacity : Nat)
    (mac : EVP_MD → List Nat → List Nat → List Nat) (n : Nat) : Host :=
  { ideal_host bigEndian capacity mac with hmacOk := fun log => log.length != n }

/-- The state at the head of the loop after `k` complete iterations, when the
loop runs that many: `none` if an earlier test ends the loop or an earlier
iteration leaves it through `goto err`. -/
def loop_state_after (P : Host) (tpm2bLabel contextU contextV tpm2bBits : List Nat)
    (bytes : Nat) : Nat → LoopState → Option LoopState
  | 0, s => some s
  | k + 1, s =>
    if s.resultKey.size < bytes then
      match loop_body P tpm2bLabel contextU contextV tpm2bBits s with
      | Step.next s1 => loop_state_after P tpm2bLabel contextU contextV tpm2bBits bytes k s1
      | Step.err _ _ => none
    else none

/-- The block `HMAC_Final` writes has the length of the digest the context was
last initialised with. -/
def Host.digest_sized (P : Host) : Prop :=
  ∀ (log : List HmacCall) (key : List Nat) (md : EVP_MD),
    last_init log = some (key, md) → (P.hmacOut log).length = md.size

/-- The number of blocks of `L` bytes needed for `bytes` bytes: the quotient
`bytes / L` rounded up. -/
def blocks_needed (bytes L : Nat) : Nat :=
  (bytes + L - 1) / L

/-- The output of a call that returned: the return code and the bytes of the
output buffer (the first `size` bytes). -/
def Outcome.output : Outcome → Option (TSS2_RC × List Nat)
  | Outcome.returned r rk _ => some (r, rk.bytes)
  | _ => none

/-- Two loop states that differ at most in the bytes of the output buffer
beyond its `size`, the `size` being within both buffers. -/
def LoopState.agrees (s t : LoopState) : Prop :=
  s.i = t.i ∧ s.log = t.log ∧ s.resultKey.size = t.resultKey.size
    ∧ s.resultKey.bytes = t.resultKey.bytes
    ∧ s.resultKey.size ≤ s.resultKey.buffer.length
    ∧ t.resultKey.size ≤ t.resultKey.buffer.length

/-- The blocks `HMAC_Final` writes in the calls `rest` that follow the calls
`pre`, in order. -/
def blocks_from (P : Host) : List HmacCall → List HmacCall → List (List Nat)
  | _, [] => []
  | pre, HmacCall.HMAC_Final :: rest =>
    P.hmacOut (pre ++ [HmacCall.HMAC_Final])
      :: blocks_from P (pre ++ [HmacCall.HMAC_Final]) rest
  | pre, c :: rest => blocks_from P (pre ++ [c]) rest

/-- The blocks finalised in a log, one per `HMAC_Final`, in the order of the
iterations. -/
def blocks_written (P : Host) (log : List HmacCall) : List (List Nat) :=
  blocks_from P [] log

/-! ## Lemmas on the helpers -/

theorem swap_bytes (a b c d : Nat) (ha : a < 256) (hb : b < 256) (hc : c < 256)
    (hd : d < 256) :
    store_u32 false (a * 16777216 + b * 65536 + c * 256 + d) = [d, c, b, a] := by
  unfold store_u32
  simp only [Bool.false_eq_true, if_false]
  congr 1
  · omega
  · congr 1
    · omega
    · congr 1
      · omega
      · congr 1
        omega

theorem swizzled_bytes_eq (P : Host) (v : Nat) : swizzled_bytes P v = BE32 v := by
  unfold swizzled_bytes
  cases h : P.is_big_endian
  · simp only [Bool.not_false, if_true]
    unfold tpm2_util_endian_swap_32 BE32
    exact swap_bytes _ _ _ _ (Nat.mod_lt _ (by norm_num)) (Nat.mod_lt _ (by norm_num))
      (Nat.mod_lt _ (by norm_num)) (Nat.mod_lt _ (by norm_num))
  · simp [store_u32, BE32]

theorem label_scan_eq (label : List Nat) (h0 : ∀ c ∈ label, c ≠ 0) :
    label_scan label = label.length := by
  unfold label_scan
  rw [List.takeWhile_eq_self_iff.mpr]
  intro c hc
  simpa using h0 c hc

theorem label_copy_eq (label : List Nat) (h0 : ∀ c ∈ label, c ≠ 0)
    (hlen : label.length + 1 ≤ 64) : label_copy label = label ++ [0] := by
  unfold label_copy label_size
  rw [label_scan_eq label h0, Nat.mod_eq_of_lt (by omega)]
  apply List.ext_getElem
  · simp
  · intro n h1 h2
    simp only [List.getElem_map, List.getElem_range, label_at]
    by_cases hn : n < label.length
    · rw [List.getElem_append_left hn]
      simp [List.getD_eq_getElem?_getD, List.getElem?_eq_getElem hn]
    · have : n = label.length := by
        simp at h2; omega
      subst this
      simp [List.getD_eq_getElem?_getD]

theorem hmac_update_list_ok (P : Host) (hok : ∀ log, P.hmacOk log = true) :
    ∀ (ds : List (List Nat)) (log : List HmacCall),
      hmac_update_list P ds log = (true, log ++ ds.map HmacCall.HMAC_Update) := by
  intro ds
  induction ds with
  | nil => intro log; simp [hmac_update_list]
  | cons d ds ih =>
    intro log
    simp [hmac_update_list, hok, ih]

theorem kdfa_while_done (P : Host) (tpm2bLabel contextU contextV tpm2bBits : List Nat)
    (bytes fuel : Nat) (s : LoopState) (h : ¬ s.resultKey.size < bytes) :
    kdfa_while P tpm2bLabel contextU contextV tpm2bBits bytes fuel s = some (Step.next s) := by
  cases fuel <;> simp [kdfa_while, h]

theorem label_size_eq (label : List Nat) (h0 : ∀ c ∈ label, c ≠ 0)
    (hlen : label.length + 1 ≤ 64) : label_size label = label.length + 1 := by
  unfold label_size
  rw [label_scan_eq label h0, Nat.mod_eq_of_lt (by omega)]

theorem single_block (P : Host) (mac : EVP_MD → List Nat → List Nat → List Nat)
    (hok : P.all_ok) (hmac : P.computes mac)
    (hlen : ∀ md key m, (mac md key m).length = md.size)
    (fuel hashAlg : Nat) (md : EVP_MD) (key label cU cV : List Nat) (bits : Nat) (rk0 : TPM2B)
    (hmd : tpm_algorithm_to_openssl_digest hashAlg = some md)
    (h0 : ∀ c ∈ label, c ≠ 0) (hlabel : label.length + 1 ≤ 64)
    (hcap : md.size ≤ P.capacity)
    (hbytes : bits / 8 ≤ md.size) (hfuel : 1 ≤ fuel) (hpos : 1 ≤ bits / 8) :
    ∃ rk log, tpm_kdfa P fuel hashAlg key label cU cV bits rk0
        = Outcome.returned TSS2_RC.TPM2_RC_SUCCESS rk log
      ∧ rk.size = bits / 8
      ∧ rk.bytes
        = (mac md key (BE32 1 ++ label ++ [0] ++ cU ++ cV ++ BE32 bits)).take (bits / 8) := by
  obtain ⟨f, rfl⟩ : ∃ f, fuel = f + 1 := ⟨fuel - 1, by omega⟩
  have hls : ¬ label_size label > TPM2B_DIGEST_BUFFER := by
    rw [label_size_eq label h0 hlabel]; unfold TPM2B_DIGEST_BUFFER; omega
  have hout := hmac key md [BE32 1, label ++ [0], cU, cV, BE32 bits]
  simp only [List.map, List.flatten] at hout
  unfold tpm_kdfa
  simp only [hls, if_false, hmd, hok _, Bool.not_true, Bool.false_eq_true]
  simp only [kdfa_while, show (0 : Nat) < bits / 8 by omega, if_true, loop_body,
    hmac_update_list_ok P hok, hok _, Bool.not_true, Bool.false_eq_true, if_false,
    swizzled_bytes_eq, label_copy_eq label h0 hlabel, tpm2_util_concat_buffer]
  simp only [List.map, List.append_assoc, List.cons_append, List.nil_append, List.append_nil]
    at hout ⊢
  rw [hout]
  have hl := hlen md key (BE32 1 ++ (label ++ (0 :: (cU ++ (cV ++ BE32 bits)))))
  rw [if_neg (by rw [hl]; omega)]
  simp only []
  rw [kdfa_while_done _ _ _ _ _ _ _ _ (by simp only [hl]; omega)]
  refine ⟨_, _, rfl, rfl, ?_⟩
  simp only [TPM2B.bytes, List.take_zero, List.nil_append, Nat.zero_add]
  rw [List.take_append_of_le_length (by rw [hl]; exact hbytes)]

/-! ## The loop body and the returns of `tpm_kdfa`, case by case -/

theorem hmac_update_list_log (P : Host) :
    ∀ (ds : List (List Nat)) (log : List HmacCall) (b : Bool) (log1 : List HmacCall),
      hmac_update_list P ds log = (b, log1) →
      ∃ us, log1 = log ++ us ∧ (∀ c ∈ us, ∃ d, c = HmacCall.HMAC_Update d)
        ∧ (b = false → ∃ pre d, us = pre ++ [HmacCall.HMAC_Update d] ∧ P.hmacOk log1 = false)
        ∧ (b = true → us = ds.map HmacCall.HMAC_Update) := by
  intro ds
  induction ds with
  | nil =>
    intro log b log1 h
    simp only [hmac_update_list, Prod.mk.injEq] at h
    obtain ⟨rfl, rfl⟩ := h
    exact ⟨[], by simp⟩
  | cons d ds ih =>
    intro log b log1 h
    simp only [hmac_update_list] at h
    by_cases hk : P.hmacOk (log ++ [HmacCall.HMAC_Update d]) = true
    · rw [if_pos hk] at h
      obtain ⟨us, h1, h2, h3, h4⟩ := ih _ _ _ h
      refine ⟨HmacCall.HMAC_Update d :: us, by simp [h1], ?_, ?_, ?_⟩
      · intro c hc
        rcases List.mem_cons.mp hc with rfl | hc
        · exact ⟨d, rfl⟩
        · exact h2 c hc
      · intro hb
        obtain ⟨pre, e, hus, hf⟩ := h3 hb
        exact ⟨HmacCall.HMAC_Update d :: pre, e, by simp [hus], hf⟩
      · intro hb
        simp [h4 hb]
    · rw [if_neg hk] at h
      simp only [Prod.mk.injEq] at h
      obtain ⟨rfl, rfl⟩ := h
      refine ⟨[HmacCall.HMAC_Update d], rfl, ?_, ?_, ?_⟩
      · intro c hc
        exact ⟨d, by simpa using hc⟩
      · intro _
        exact ⟨[], d, rfl, by simpa using hk⟩
      · intro hb
        simp at hb

/-- The four ways the loop body ends. -/
theorem loop_body_cases (P : Host) (lab cU cV bb : List Nat) (s : LoopState) :
    (∃ pre d, (∀ c ∈ pre, ∃ e, c = HmacCall.HMAC_Update e)
        ∧ P.hmacOk (s.log ++ pre ++ [HmacCall.HMAC_Update d]) = false
        ∧ loop_body P lab cU cV bb s = Step.err TSS2_RC.TPM2_RC_MEMORY
            { s with log := s.log ++ pre ++ [HmacCall.HMAC_Update d] })
    ∨ (P.hmacOk (s.log ++ iteration_updates P lab cU cV bb s.i ++ [HmacCall.HMAC_Final]) = false
        ∧ loop_body P lab cU cV bb s = Step.err TSS2_RC.TPM2_RC_MEMORY
            { s with log := s.log ++ iteration_updates P lab cU cV bb s.i
                ++ [HmacCall.HMAC_Final] })
    ∨ (P.hmacOk (s.log ++ iteration_updates P lab cU cV bb s.i ++ [HmacCall.HMAC_Final]) = true
        ∧ s.resultKey.size + (P.hmacOut (s.log ++ iteration_updates P lab cU cV bb s.i
              ++ [HmacCall.HMAC_Final])).length > P.capacity
        ∧ loop_body P lab cU cV bb s = Step.err TSS2_RC.TSS2_SYS_RC_BAD_VALUE
            { s with log := s.log ++ iteration_updates P lab cU cV bb s.i
                ++ [HmacCall.HMAC_Final] })
    ∨ (P.hmacOk (s.log ++ iteration_updates P lab cU cV bb s.i ++ [HmacCall.HMAC_Final]) = true
        ∧ s.resultKey.size + (P.hmacOut (s.log ++ iteration_updates P lab cU cV bb s.i
              ++ [HmacCall.HMAC_Final])).length ≤ P.capacity
        ∧ loop_body P lab cU cV bb s = Step.next
            { resultKey :=
                { size := s.resultKey.size + (P.hmacOut (s.log
                    ++ iteration_updates P lab cU cV bb s.i ++ [HmacCall.HMAC_Final])).length
                  buffer := s.resultKey.buffer.take s.resultKey.size
                    ++ P.hmacOut (s.log ++ iteration_updates P lab cU cV bb s.i
                      ++ [HmacCall.HMAC_Final])
                    ++ s.resultKey.buffer.drop (s.resultKey.size + (P.hmacOut (s.log
                      ++ iteration_updates P lab cU cV bb s.i
                      ++ [HmacCall.HMAC_Final])).length) }
              i := s.i
              log := s.log ++ iteration_updates P lab cU cV bb s.i
                ++ [HmacCall.HMAC_Final] }) := by
  simp only [loop_body]
  rcases hu : hmac_update_list P [swizzled_bytes P s.i, lab, cU, cV, bb] s.log with ⟨b, log1⟩
  obtain ⟨us, h1, h2, h3, h4⟩ := hmac_update_list_log P _ _ _ _ hu
  cases b with
  | false =>
    obtain ⟨pre, d, hus, hf⟩ := h3 rfl
    left
    refine ⟨pre, d, ?_, ?_, ?_⟩
    · intro c hc
      exact h2 c (by rw [hus]; exact List.mem_append_left _ hc)
    · rw [h1, hus, ← List.append_assoc] at hf
      exact hf
    · simp only [h1, hus, List.append_assoc]
  | true =>
    right
    have hus : us = iteration_updates P lab cU cV bb s.i := by
      rw [h4 rfl]; rfl
    subst hus
    subst h1
    simp only []
    by_cases hk : P.hmacOk (s.log ++ iteration_updates P lab cU cV bb s.i
        ++ [HmacCall.HMAC_Final]) = true
    · right
      simp only [hk, Bool.not_true, Bool.false_eq_true, if_false, tpm2_util_concat_buffer]
      by_cases hc : s.resultKey.size + (P.hmacOut (s.log
          ++ iteration_updates P lab cU cV bb s.i ++ [HmacCall.HMAC_Final])).length
          > P.capacity
      · left
        simp only [hc, if_true, true_and]
      · right
        simp only [hc, if_false, true_and]
        exact ⟨by omega, trivial⟩
    · left
      have hk2 : P.hmacOk (s.log ++ iteration_updates P lab cU cV bb s.i
          ++ [HmacCall.HMAC_Final]) = false := by simpa using hk
      simp only [hk2, Bool.not_false, if_true, true_and]

/-- The five ways `tpm_kdfa` returns. -/
theorem tpm_kdfa_returned {P : Host} {fuel hashAlg : Nat} {key label cU cV : List Nat}
    {bits : Nat} {rk0 : TPM2B} {rval : TSS2_RC} {rk : TPM2B} {log : List HmacCall}
    (h : tpm_kdfa P fuel hashAlg key label cU cV bits rk0 = Outcome.returned rval rk log) :
    label_size label ≤ TPM2B_DIGEST_BUFFER ∧
    ((tpm_algorithm_to_openssl_digest hashAlg = none ∧ rval = TSS2_RC.TPM2_RC_HASH
        ∧ rk = { size := 0, buffer := rk0.buffer } ∧ log = [])
    ∨ ∃ md, tpm_algorithm_to_openssl_digest hashAlg = some md ∧
      ((P.hmacOk [HmacCall.HMAC_CTX_new] = false ∧ rval = TSS2_RC.TPM2_RC_MEMORY
          ∧ rk = { size := 0, buffer := rk0.buffer } ∧ log = [HmacCall.HMAC_CTX_new])
      ∨ (P.hmacOk [HmacCall.HMAC_CTX_new] = true
          ∧ P.hmacOk [HmacCall.HMAC_CTX_new, HmacCall.HMAC_Init_ex key md] = false
          ∧ rval = TSS2_RC.TPM2_RC_MEMORY ∧ rk = { size := 0, buffer := rk0.buffer }
          ∧ log = [HmacCall.HMAC_CTX_new, HmacCall.HMAC_Init_ex key md,
              HmacCall.HMAC_CTX_free])
      ∨ (P.hmacOk [HmacCall.HMAC_CTX_new] = true
          ∧ P.hmacOk [HmacCall.HMAC_CTX_new, HmacCall.HMAC_Init_ex key md] = true
          ∧ ∃ s, kdfa_while P (label_copy label) cU cV (swizzled_bytes P bits) (bits / 8) fuel
                (loop_entry key md rk0) = some (Step.err rval s)
              ∧ rk = s.resultKey ∧ log = s.log ++ [HmacCall.HMAC_CTX_free])
      ∨ (P.hmacOk [HmacCall.HMAC_CTX_new] = true
          ∧ P.hmacOk [HmacCall.HMAC_CTX_new, HmacCall.HMAC_Init_ex key md] = true
          ∧ ∃ s, kdfa_while P (label_copy label) cU cV (swizzled_bytes P bits) (bits / 8) fuel
                (loop_entry key md rk0) = some (Step.next s)
              ∧ rval = TSS2_RC.TPM2_RC_SUCCESS
              ∧ rk = { size := bits / 8, buffer := s.resultKey.buffer }
              ∧ log = s.log ++ [HmacCall.HMAC_CTX_free]))) := by
  simp only [tpm_kdfa] at h
  by_cases hl : label_size label > TPM2B_DIGEST_BUFFER
  · simp [hl] at h
  · rw [if_neg hl] at h
    refine ⟨by omega, ?_⟩
    cases hmd : tpm_algorithm_to_openssl_digest hashAlg with
    | none =>
      left
      rw [hmd] at h
      simp only [Outcome.returned.injEq] at h
      obtain ⟨h1, h2, h3⟩ := h
      exact ⟨rfl, h1.symm, h2.symm, h3.symm⟩
    | some md =>
      right
      refine ⟨md, rfl, ?_⟩
      rw [hmd] at h
      simp only [] at h
      cases ha : P.hmacOk [HmacCall.HMAC_CTX_new] with
      | false =>
        left
        simp only [ha, Bool.not_false, if_true, Outcome.returned.injEq] at h
        obtain ⟨h1, h2, h3⟩ := h
        exact ⟨rfl, h1.symm, h2.symm, h3.symm⟩
      | true =>
        right
        simp only [ha, Bool.not_true, Bool.false_eq_true, if_false, List.singleton_append,
          List.cons_append, List.nil_append] at h
        cases hi : P.hmacOk [HmacCall.HMAC_CTX_new, HmacCall.HMAC_Init_ex key md] with
        | false =>
          left
          simp only [hi, Bool.not_false, if_true, Outcome.returned.injEq, List.cons_append,
            List.nil_append] at h
          obtain ⟨h1, h2, h3⟩ := h
          exact ⟨rfl, rfl, h1.symm, h2.symm, h3.symm⟩
        | true =>
          right
          simp only [hi, Bool.not_true, Bool.false_eq_true, if_false] at h
          cases hw : kdfa_while P (label_copy label) cU cV (swizzled_bytes P bits) (bits / 8)
              fuel (loop_entry key md rk0) with
          | none =>
            simp only [loop_entry] at hw
            simp [hw] at h
          | some st =>
            simp only [loop_entry] at hw
            rw [hw] at h
            cases st with
            | err r s =>
              left
              simp only [Outcome.returned.injEq] at h
              obtain ⟨h1, h2, h3⟩ := h
              subst h1
              exact ⟨rfl, rfl, s, rfl, h2.symm, h3.symm⟩
            | next s =>
              right
              simp only [Outcome.returned.injEq] at h
              obtain ⟨h1, h2, h3⟩ := h
              exact ⟨rfl, rfl, s, rfl, h1.symm, h2.symm, h3.symm⟩

/-- Invariant rule for the loop: a property of the loop state that every
completed iteration keeps holds when the loop exits, and what every failing
iteration establishes holds at `err`. -/
theorem kdfa_while_rule (P : Host) (lab cU cV bb : List Nat) (bytes : Nat)
    (Inv : LoopState → Prop) (R : TSS2_RC → LoopState → Prop)
    (hnext : ∀ s s1, Inv s → s.resultKey.size < bytes →
      loop_body P lab cU cV bb s = Step.next s1 → Inv s1)
    (herr : ∀ s r s1, Inv s → s.resultKey.size < bytes →
      loop_body P lab cU cV bb s = Step.err r s1 → R r s1) :
    ∀ (fuel : Nat) (s : LoopState), Inv s →
      (∀ s1, kdfa_while P lab cU cV bb bytes fuel s = some (Step.next s1) →
        Inv s1 ∧ ¬ s1.resultKey.size < bytes)
      ∧ (∀ r s1, kdfa_while P lab cU cV bb bytes fuel s = some (Step.err r s1) → R r s1) := by
  intro fuel
  induction fuel with
  | zero =>
    intro s hs
    constructor
    · intro s1 h
      by_cases hlt : s.resultKey.size < bytes
      · simp [kdfa_while, hlt] at h
      · simp only [kdfa_while, hlt, if_false, Option.some.injEq, Step.next.injEq] at h
        subst h
        exact ⟨hs, hlt⟩
    · intro r s1 h
      by_cases hlt : s.resultKey.size < bytes
      · simp [kdfa_while, hlt] at h
      · simp [kdfa_while, hlt] at h
  | succ n ih =>
    intro s hs
    by_cases hlt : s.resultKey.size < bytes
    · cases hb : loop_body P lab cU cV bb s with
      | next s2 =>
        have hi := ih s2 (hnext s s2 hs hlt hb)
        constructor
        · intro s1 h
          simp only [kdfa_while, hlt, if_true, hb] at h
          exact hi.1 s1 h
        · intro r s1 h
          simp only [kdfa_while, hlt, if_true, hb] at h
          exact hi.2 r s1 h
      | err r2 s2 =>
        constructor
        · intro s1 h
          simp [kdfa_while, hlt, hb] at h
        · intro r s1 h
          simp only [kdfa_while, hlt, if_true, hb, Option.some.injEq, Step.err.injEq] at h
          obtain ⟨h1, h2⟩ := h
          subst h1 h2
          exact herr s r2 s2 hs hlt hb
    · constructor
      · intro s1 h
        simp only [kdfa_while, hlt, if_false, Option.some.injEq, Step.next.injEq] at h
        subst h
        exact ⟨hs, hlt⟩
      · intro r s1 h
        simp [kdfa_while, hlt] at h

/-! ## C1: single-block reference value -/

theorem last_init_updates (ds : List (List Nat)) :
    last_init (ds.map HmacCall.HMAC_Update ++ [HmacCall.HMAC_Final]) = none := by
  induction ds with
  | nil => rfl
  | cons d ds ih => simpa [last_init] using ih

theorem fed_bytes_updates (ds : List (List Nat)) :
    fed_bytes (ds.map HmacCall.HMAC_Update ++ [HmacCall.HMAC_Final]) = ds.flatten := by
  induction ds with
  | nil => rfl
  | cons d ds ih => simp [fed_bytes, ih]

theorem ideal_host_all_ok (b : Bool) (cap : Nat)
    (mac : EVP_MD → List Nat → List Nat → List Nat) : (ideal_host b cap mac).all_ok :=
  fun _ => rfl

theorem ideal_host_computes (b : Bool) (cap : Nat)
    (mac : EVP_MD → List Nat → List Nat → List Nat) : (ideal_host b cap mac).computes mac := by
  intro key md ds
  simp only [ideal_host, List.cons_append, List.nil_append, last_init, last_init_updates,
    fed_bytes, fed_bytes_updates]

theorem toy_mac_length (md : EVP_MD) (key m : List Nat) : (toy_mac md key m).length = md.size := by
  simp [toy_mac]

/-- C1. Single-block reference value: with a supported digest of length `L`, a label
that fits the label buffer, `1 ≤ bits / 8 ≤ L` and an HMAC library whose calls
all succeed, `tpm_kdfa` returns success and its output is the first `bits / 8`
bytes of `HMAC(key, BE32(1) ‖ label ‖ 0x00 ‖ contextU ‖ contextV ‖ BE32(bits))`;
for 32 zero key bytes, label "KDFA_TEST", empty contexts, 256 bits and SHA-256
it is the HMAC over `00000001 ‖ "KDFA_TEST" ‖ 00 ‖ 00000100`. -/
theorem kdfa_single_block_reference_value (P : Host)
    (mac : EVP_MD → List Nat → List Nat → List Nat)
    (hok : P.all_ok) (hmac : P.computes mac)
    (hlen : ∀ md key m, (mac md key m).length = md.size)
    (hcap : 64 ≤ P.capacity) (fuel : Nat) (hfuel : 1 ≤ fuel) :
    (∀ (hashAlg : Nat) (md : EVP_MD) (key label cU cV : List Nat) (bits : Nat) (rk0 : TPM2B),
      tpm_algorithm_to_openssl_digest hashAlg = some md →
      (∀ c ∈ label, c ≠ 0) → label.length + 1 ≤ 64 →
      1 ≤ bits / 8 → bits / 8 ≤ md.size →
      ∃ rk log, tpm_kdfa P fuel hashAlg key label cU cV bits rk0
          = Outcome.returned TSS2_RC.TPM2_RC_SUCCESS rk log
        ∧ rk.size = bits / 8
        ∧ rk.bytes
          = (mac md key (BE32 1 ++ label ++ [0] ++ cU ++ cV ++ BE32 bits)).take (bits / 8))
    ∧ (∀ rk0 : TPM2B,
      ∃ rk log, tpm_kdfa P fuel TPM2_ALG_SHA256 (List.replicate 32 0)
            [75, 68, 70, 65, 95, 84, 69, 83, 84] [] [] 256 rk0
          = Outcome.returned TSS2_RC.TPM2_RC_SUCCESS rk log
        ∧ rk.size = 32
        ∧ rk.bytes = mac EVP_MD.sha256 (List.replicate 32 0)
            ([0, 0, 0, 1] ++ [75, 68, 70, 65, 95, 84, 69, 83, 84] ++ [0] ++ [0, 0, 1, 0])) := by
  have hsz : ∀ md : EVP_MD, md.size ≤ P.capacity := by
    intro md
    cases md <;> simp only [EVP_MD.size] <;> omega
  constructor
  · intro hashAlg md key label cU cV bits rk0 hmd h0 hlabel hpos hbytes
    exact single_block P mac hok hmac hlen fuel hashAlg md key label cU cV bits rk0 hmd h0
      hlabel (hsz md) hbytes hfuel hpos
  · intro rk0
    obtain ⟨rk, log, h1, h2, h3⟩ := single_block P mac hok hmac hlen fuel TPM2_ALG_SHA256
      EVP_MD.sha256 (List.replicate 32 0) [75, 68, 70, 65, 95, 84, 69, 83, 84] [] [] 256 rk0
      (by decide) (by decide) (by decide) (hsz _) (by decide) hfuel (by decide)
    refine ⟨rk, log, h1, h2, ?_⟩
    rw [h3]
    have h32 := hlen EVP_MD.sha256 (List.replicate 32 0)
      (BE32 1 ++ [75, 68, 70, 65, 95, 84, 69, 83, 84] ++ [0] ++ [] ++ [] ++ BE32 256)
    rw [List.take_of_length_le (by rw [h32]; decide)]
    rfl

/-- Witness of C1: the known-answer input on a little-endian host with the
reference library. -/
theorem kdfa_single_block_reference_value_witness :
    ∃ rk log, tpm_kdfa (ideal_host false 1024 toy_mac) 1 TPM2_ALG_SHA256 (List.replicate 32 0)
          [75, 68, 70, 65, 95, 84, 69, 83, 84] [] [] 256 { size := 0, buffer := [] }
        = Outcome.returned TSS2_RC.TPM2_RC_SUCCESS rk log
      ∧ rk.size = 32
      ∧ rk.bytes = toy_mac EVP_MD.sha256 (List.replicate 32 0)
          ([0, 0, 0, 1] ++ [75, 68, 70, 65, 95, 84, 69, 83, 84] ++ [0] ++ [0, 0, 1, 0]) :=
  (kdfa_single_block_reference_value (ideal_host false 1024 toy_mac) toy_mac
    (ideal_host_all_ok _ _ _) (ideal_host_computes _ _ _) toy_mac_length (by decide) 1
    (Nat.le_refl 1)).2 { size := 0, buffer := [] }

/-! ## The states the loop passes through -/

theorem Outcome.rval_eq_some {o : Outcome} {r : TSS2_RC} (h : o.rval = some r) :
    ∃ rk log, o = Outcome.returned r rk log := by
  cases o with
  | returned r1 rk log =>
    simp only [Outcome.rval, Option.some.injEq] at h
    exact ⟨rk, log, by rw [h]⟩
  | label_overflow => simp [Outcome.rval] at h
  | out_of_fuel => simp [Outcome.rval] at h

/-- Invariant rule for the states the loop passes through. -/
theorem loop_state_after_rule (P : Host) (lab cU cV bb : List Nat) (bytes : Nat)
    (Inv : LoopState → Prop)
    (hnext : ∀ s s1, Inv s → s.resultKey.size < bytes →
      loop_body P lab cU cV bb s = Step.next s1 → Inv s1) :
    ∀ (k : Nat) (s0 s : LoopState), Inv s0 →
      loop_state_after P lab cU cV bb bytes k s0 = some s → Inv s := by
  intro k
  induction k with
  | zero =>
    intro s0 s h0 h
    simp only [loop_state_after, Option.some.injEq] at h
    exact h ▸ h0
  | succ n ih =>
    intro s0 s h0 h
    by_cases hlt : s0.resultKey.size < bytes
    · cases hb : loop_body P lab cU cV bb s0 with
      | next s1 =>
        simp only [loop_state_after, hlt, if_true, hb] at h
        exact ih s1 s (hnext s0 s1 h0 hlt hb) h
      | err r s1 => simp [loop_state_after, hlt, hb] at h
    · simp [loop_state_after, hlt] at h

/-- A failing loop ran some `k` complete iterations and failed in the next. -/
theorem kdfa_while_err (P : Host) (lab cU cV bb : List Nat) (bytes : Nat) :
    ∀ (fuel : Nat) (s0 : LoopState) (r : TSS2_RC) (s1 : LoopState),
      kdfa_while P lab cU cV bb bytes fuel s0 = some (Step.err r s1) →
      ∃ k s, k < fuel ∧ loop_state_after P lab cU cV bb bytes k s0 = some s
        ∧ s.resultKey.size < bytes ∧ loop_body P lab cU cV bb s = Step.err r s1 := by
  intro fuel
  induction fuel with
  | zero =>
    intro s0 r s1 h
    by_cases hlt : s0.resultKey.size < bytes <;> simp [kdfa_while, hlt] at h
  | succ n ih =>
    intro s0 r s1 h
    by_cases hlt : s0.resultKey.size < bytes
    · cases hb : loop_body P lab cU cV bb s0 with
      | next s2 =>
        simp only [kdfa_while, hlt, if_true, hb] at h
        obtain ⟨k, s, hk, hs, hlt2, he⟩ := ih s2 r s1 h
        refine ⟨k + 1, s, by omega, ?_, hlt2, he⟩
        simp only [loop_state_after, hlt, if_true, hb]
        exact hs
      | err r2 s2 =>
        simp only [kdfa_while, hlt, if_true, hb, Option.some.injEq, Step.err.injEq] at h
        obtain ⟨h1, h2⟩ := h
        subst h1 h2
        exact ⟨0, s0, by omega, rfl, hlt, hb⟩
    · simp [kdfa_while, hlt] at h

/-- A loop that exits normally ran some `k` complete iterations. -/
theorem kdfa_while_next (P : Host) (lab cU cV bb : List Nat) (bytes : Nat) :
    ∀ (fuel : Nat) (s0 s1 : LoopState),
      kdfa_while P lab cU cV bb bytes fuel s0 = some (Step.next s1) →
      ∃ k, k ≤ fuel ∧ loop_state_after P lab cU cV bb bytes k s0 = some s1
        ∧ ¬ s1.resultKey.size < bytes := by
  intro fuel
  induction fuel with
  | zero =>
    intro s0 s1 h
    by_cases hlt : s0.resultKey.size < bytes
    · simp [kdfa_while, hlt] at h
    · simp only [kdfa_while, hlt, if_false, Option.some.injEq, Step.next.injEq] at h
      subst h
      exact ⟨0, Nat.le_refl 0, rfl, hlt⟩
  | succ n ih =>
    intro s0 s1 h
    by_cases hlt : s0.resultKey.size < bytes
    · cases hb : loop_body P lab cU cV bb s0 with
      | next s2 =>
        simp only [kdfa_while, hlt, if_true, hb] at h
        obtain ⟨k, hk, hs, hge⟩ := ih s2 s1 h
        refine ⟨k + 1, by omega, ?_, hge⟩
        simp only [loop_state_after, hlt, if_true, hb]
        exact hs
      | err r2 s2 => simp [kdfa_while, hlt, hb] at h
    · simp only [kdfa_while, hlt, if_false, Option.some.injEq, Step.next.injEq] at h
      subst h
      exact ⟨0, Nat.zero_le _, rfl, hlt⟩

theorem loop_body_err_state (P : Host) (lab cU cV bb : List Nat) (s : LoopState)
    (r : TSS2_RC) (s1 : LoopState) (h : loop_body P lab cU cV bb s = Step.err r s1) :
    s1.resultKey = s.resultKey ∧ s1.i = s.i
      ∧ (r = TSS2_RC.TPM2_RC_MEMORY ∨ r = TSS2_RC.TSS2_SYS_RC_BAD_VALUE) := by
  rcases loop_body_cases P lab cU cV bb s with ⟨pre, d, _, _, hb⟩ | ⟨_, hb⟩ | ⟨_, _, hb⟩
    | ⟨_, _, hb⟩
  all_goals
    rw [hb] at h
    first
      | (simp only [Step.err.injEq] at h
         obtain ⟨h1, h2⟩ := h
         subst h1 h2
         simp)
      | simp at h

theorem loop_body_next_state (P : Host) (lab cU cV bb : List Nat) (s s1 : LoopState)
    (h : loop_body P lab cU cV bb s = Step.next s1) :
    s1.i = s.i
      ∧ s1.log = s.log ++ iteration_updates P lab cU cV bb s.i ++ [HmacCall.HMAC_Final]
      ∧ P.hmacOk s1.log = true
      ∧ s1.resultKey.size = s.resultKey.size + (P.hmacOut s1.log).length
      ∧ s1.resultKey.size ≤ P.capacity
      ∧ s1.resultKey.buffer = s.resultKey.buffer.take s.resultKey.size ++ P.hmacOut s1.log
          ++ s.resultKey.buffer.drop s1.resultKey.size := by
  rcases loop_body_cases P lab cU cV bb s with ⟨pre, d, _, _, hb⟩ | ⟨_, hb⟩ | ⟨_, _, hb⟩
    | ⟨hk, hc, hb⟩
  · rw [hb] at h; simp at h
  · rw [hb] at h; simp at h
  · rw [hb] at h; simp at h
  · rw [hb] at h
    simp only [Step.next.injEq] at h
    subst h
    exact ⟨rfl, rfl, hk, rfl, hc, rfl⟩

theorem kdfa_while_err_code (P : Host) (lab cU cV bb : List Nat) (bytes fuel : Nat)
    (s0 : LoopState) (r : TSS2_RC) (s1 : LoopState)
    (h : kdfa_while P lab cU cV bb bytes fuel s0 = some (Step.err r s1)) :
    r = TSS2_RC.TPM2_RC_MEMORY ∨ r = TSS2_RC.TSS2_SYS_RC_BAD_VALUE := by
  obtain ⟨k, s, _, _, _, he⟩ := kdfa_while_err P lab cU cV bb bytes fuel s0 r s1 h
  exact (loop_body_err_state P lab cU cV bb s r s1 he).2.2

/-- A successful call went through the loop to its normal exit. -/
theorem tpm_kdfa_success {P : Host} {fuel hashAlg : Nat} {key label cU cV : List Nat}
    {bits : Nat} {rk0 : TPM2B} {rk : TPM2B} {log : List HmacCall}
    (h : tpm_kdfa P fuel hashAlg key label cU cV bits rk0
      = Outcome.returned TSS2_RC.TPM2_RC_SUCCESS rk log) :
    ∃ md s, tpm_algorithm_to_openssl_digest hashAlg = some md
      ∧ kdfa_while P (label_copy label) cU cV (swizzled_bytes P bits) (bits / 8) fuel
          (loop_entry key md rk0) = some (Step.next s)
      ∧ rk = { size := bits / 8, buffer := s.resultKey.buffer }
      ∧ log = s.log ++ [HmacCall.HMAC_CTX_free] := by
  obtain ⟨_, hc⟩ := tpm_kdfa_returned h
  rcases hc with ⟨_, hr, _⟩ | ⟨md, hmd, hc⟩
  · cases hr
  · rcases hc with ⟨_, hr, _⟩ | ⟨_, _, hr, _⟩ | ⟨_, _, s, hw, _⟩ | ⟨_, _, s, hw, _, hrk, hlog⟩
    · cases hr
    · cases hr
    · rcases kdfa_while_err_code _ _ _ _ _ _ _ _ _ _ hw with hr | hr <;> cases hr
    · exact ⟨md, s, hmd, hw, hrk, hlog⟩

/-! ## C2: the counter fed in each iteration -/

/-- C2 (defect of the code). The loop body never assigns the counter `i`, which
stays at its initial value 1: at the head of every iteration `i` is 1 and the
iteration feeds `BE32 1` first, so iteration `k + 1` does not feed `k + 1`.
Deriving 512 bits with SHA-1 runs four iterations and the message of each
begins with the encoding of 1, where the counter values 1, 2, 3, 4 are
specified. -/
theorem kdfa_counter_never_incremented :
    (∀ (P : Host) (lab cU cV bb : List Nat) (s s1 : LoopState),
      loop_body P lab cU cV bb s = Step.next s1 → s1.i = s.i)
    ∧ (∀ (P : Host) (lab cU cV bb : List Nat) (bytes : Nat) (key : List Nat) (md : EVP_MD)
        (rk0 : TPM2B) (k : Nat) (s : LoopState),
        loop_state_after P lab cU cV bb bytes k (loop_entry key md rk0) = some s →
        s.i = 1 ∧ ∀ s1, loop_body P lab cU cV bb s = Step.next s1 →
          s1.log = s.log ++ [HmacCall.HMAC_Update (BE32 1), HmacCall.HMAC_Update lab,
            HmacCall.HMAC_Update cU, HmacCall.HMAC_Update cV, HmacCall.HMAC_Update bb,
            HmacCall.HMAC_Final])
    ∧ (tpm_kdfa (ideal_host false 1024 toy_mac) 4 TPM2_ALG_SHA1 [] [] [] [] 512
        { size := 0, buffer := [] }).rval = some TSS2_RC.TPM2_RC_SUCCESS
    ∧ (messages_fed (tpm_kdfa (ideal_host false 1024 toy_mac) 4 TPM2_ALG_SHA1 [] [] [] [] 512
        { size := 0, buffer := [] }).calls).map (List.take 4)
      = [BE32 1, BE32 1, BE32 1, BE32 1]
    ∧ (messages_fed (tpm_kdfa (ideal_host false 1024 toy_mac) 4 TPM2_ALG_SHA1 [] [] [] [] 512
        { size := 0, buffer := [] }).calls).map (List.take 4)
      ≠ [BE32 1, BE32 2, BE32 3, BE32 4] := by
  refine ⟨?_, ?_, by decide, by decide, by decide⟩
  · intro P lab cU cV bb s s1 h
    exact (loop_body_next_state P lab cU cV bb s s1 h).1
  · intro P lab cU cV bb bytes key md rk0 k s hs
    have hi : s.i = 1 :=
      loop_state_after_rule P lab cU cV bb bytes (fun s => s.i = 1)
        (fun s s1 h1 _ hb => ((loop_body_next_state _ _ _ _ _ _ _ hb).1).trans h1)
        k (loop_entry key md rk0) s rfl hs
    refine ⟨hi, ?_⟩
    intro s1 hb
    rw [(loop_body_next_state _ _ _ _ _ _ _ hb).2.1, hi]
    simp [iteration_updates, swizzled_bytes_eq]

/-! ## C3: exact output length -/

/-- C3. Exact output length: whenever `tpm_kdfa` returns success the `size` field of
the output is `bits / 8`, the quotient rounded down, whatever the number of
iterations. -/
theorem kdfa_output_length_exact (P : Host) (fuel hashAlg : Nat)
    (key label cU cV : List Nat) (bits : Nat) (rk0 : TPM2B)
    (h : (tpm_kdfa P fuel hashAlg key label cU cV bits rk0).rval
      = some TSS2_RC.TPM2_RC_SUCCESS) :
    (tpm_kdfa P fuel hashAlg key label cU cV bits rk0).size = some (bits / 8) := by
  obtain ⟨rk, log, he⟩ := Outcome.rval_eq_some h
  obtain ⟨md, s, _, _, hrk, _⟩ := tpm_kdfa_success he
  rw [he, hrk]
  rfl

/-- Witness of C3: 263 bits with SHA-256 give success and 32 bytes. -/
theorem kdfa_output_length_exact_witness :
    (tpm_kdfa (ideal_host false 1024 toy_mac) 1 TPM2_ALG_SHA256 (List.replicate 32 0)
        [75, 68, 70, 65, 95, 84, 69, 83, 84] [] [] 263 { size := 0, buffer := [] }).rval
      = some TSS2_RC.TPM2_RC_SUCCESS
    ∧ (tpm_kdfa (ideal_host false 1024 toy_mac) 1 TPM2_ALG_SHA256 (List.replicate 32 0)
        [75, 68, 70, 65, 95, 84, 69, 83, 84] [] [] 263 { size := 0, buffer := [] }).size
      = some 32 :=
  ⟨by decide, kdfa_output_length_exact (ideal_host false 1024 toy_mac) 1 TPM2_ALG_SHA256
    (List.replicate 32 0) [75, 68, 70, 65, 95, 84, 69, 83, 84] [] [] 263
    { size := 0, buffer := [] } (by decide)⟩

/-! ## C4: the output size after a failure -/

theorem last_init_append (l m : List HmacCall) :
    last_init (l ++ m) = match last_init m with
      | some r => some r
      | none => last_init l := by
  induction l with
  | nil =>
    simp only [List.nil_append, last_init]
    cases last_init m <;> rfl
  | cons c l ih =>
    cases c with
    | HMAC_Init_ex key md =>
      have ih2 : last_init (l.append m) = match last_init m with
          | some r => some r
          | none => last_init l := ih
      simp only [List.cons_append, last_init]
      rw [ih2]
      cases last_init m <;> rfl
    | HMAC_CTX_new => simpa only [List.cons_append, last_init] using ih
    | HMAC_Update d => simpa only [List.cons_append, last_init] using ih
    | HMAC_Final => simpa only [List.cons_append, last_init] using ih
    | HMAC_CTX_free => simpa only [List.cons_append, last_init] using ih

theorem last_init_iteration (P : Host) (lab cU cV bb : List Nat) (i : Nat)
    (log : List HmacCall) :
    last_init (log ++ iteration_updates P lab cU cV bb i ++ [HmacCall.HMAC_Final])
      = last_init log := by
  rw [List.append_assoc, last_init_append]
  rfl

theorem loop_body_next_size (P : Host) (hP : P.digest_sized) (lab cU cV bb : List Nat)
    (key : List Nat) (md : EVP_MD) (s s1 : LoopState)
    (hi : last_init s.log = some (key, md))
    (h : loop_body P lab cU cV bb s = Step.next s1) :
    last_init s1.log = some (key, md)
      ∧ s1.resultKey.size = s.resultKey.size + md.size := by
  obtain ⟨_, hlog, _, hsz, _, _⟩ := loop_body_next_state P lab cU cV bb s s1 h
  have hi1 : last_init s1.log = some (key, md) := by
    rw [hlog, last_init_iteration]; exact hi
  exact ⟨hi1, by rw [hsz, hP s1.log key md hi1]⟩

theorem loop_state_after_size (P : Host) (hP : P.digest_sized) (lab cU cV bb : List Nat)
    (bytes : Nat) (key : List Nat) (md : EVP_MD) :
    ∀ (k : Nat) (s0 s : LoopState), last_init s0.log = some (key, md) →
      loop_state_after P lab cU cV bb bytes k s0 = some s →
      last_init s.log = some (key, md)
        ∧ s.resultKey.size = s0.resultKey.size + k * md.size := by
  intro k
  induction k with
  | zero =>
    intro s0 s hi h
    simp only [loop_state_after, Option.some.injEq] at h
    subst h
    exact ⟨hi, by simp⟩
  | succ n ih =>
    intro s0 s hi h
    by_cases hlt : s0.resultKey.size < bytes
    · cases hb : loop_body P lab cU cV bb s0 with
      | next s1 =>
        simp only [loop_state_after, hlt, if_true, hb] at h
        obtain ⟨hi1, hs1⟩ := loop_body_next_size P hP lab cU cV bb key md s0 s1 hi hb
        obtain ⟨hi2, hs2⟩ := ih s1 s hi1 h
        refine ⟨hi2, ?_⟩
        rw [hs2, hs1, Nat.add_mul]
        omega
      | err r s1 => simp [loop_state_after, hlt, hb] at h
    · simp [loop_state_after, hlt] at h

theorem ideal_host_digest_sized (b : Bool) (cap : Nat)
    (mac : EVP_MD → List Nat → List Nat → List Nat)
    (hlen : ∀ md key m, (mac md key m).length = md.size) :
    (ideal_host b cap mac).digest_sized := by
  intro log key md h
  simp only [ideal_host, h]
  exact hlen md key _

theorem failing_host_digest_sized (b : Bool) (cap : Nat)
    (mac : EVP_MD → List Nat → List Nat → List Nat)
    (hlen : ∀ md key m, (mac md key m).length = md.size) (n : Nat) :
    (failing_host b cap mac n).digest_sized :=
  ideal_host_digest_sized b cap mac hlen

/-- Counterexample to C4: the second `HMAC_Final` (the 14th call on the context)
fails when 320 bits are derived with SHA-1; `tpm_kdfa` returns
`TPM2_RC_MEMORY` and the output keeps the 20 bytes of the first block, its
size is not 0. -/
theorem kdfa_short_key_after_failure :
    (tpm_kdfa (failing_host false 1024 toy_mac 14) 2 TPM2_ALG_SHA1 [] [] [] [] 320
        { size := 0, buffer := [] }).rval = some TSS2_RC.TPM2_RC_MEMORY
    ∧ (tpm_kdfa (failing_host false 1024 toy_mac 14) 2 TPM2_ALG_SHA1 [] [] [] [] 320
        { size := 0, buffer := [] }).size = some 20
    ∧ (tpm_kdfa (failing_host false 1024 toy_mac 14) 2 TPM2_ALG_SHA1 [] [] [] [] 320
        { size := 0, buffer := [] }).size ≠ some 0 := by
  decide

/-- C4 (amended). On a non-success return the `size` field of the output is the
length of the blocks the completed iterations appended: it is 0 when the
algorithm is unsupported or the allocation or the initialisation fails, and
after a failure in the loop it is `k * L`, where `k` iterations completed
before the failing one and `L` is the digest length (0 exactly for a failure
in the first iteration); it is not reset. -/
theorem kdfa_failure_size (P : Host) (hP : P.digest_sized) (fuel hashAlg : Nat)
    (key label cU cV : List Nat) (bits : Nat) (rk0 : TPM2B) (rval : TSS2_RC)
    (h : (tpm_kdfa P fuel hashAlg key label cU cV bits rk0).rval = some rval)
    (hne : rval ≠ TSS2_RC.TPM2_RC_SUCCESS) :
    ((tpm_algorithm_to_openssl_digest hashAlg = none
        ∨ P.hmacOk [HmacCall.HMAC_CTX_new] = false
        ∨ ∃ md, tpm_algorithm_to_openssl_digest hashAlg = some md
            ∧ P.hmacOk [HmacCall.HMAC_CTX_new, HmacCall.HMAC_Init_ex key md] = false) →
      (tpm_kdfa P fuel hashAlg key label cU cV bits rk0).size = some 0)
    ∧ (∀ md, tpm_algorithm_to_openssl_digest hashAlg = some md →
        P.hmacOk [HmacCall.HMAC_CTX_new] = true →
        P.hmacOk [HmacCall.HMAC_CTX_new, HmacCall.HMAC_Init_ex key md] = true →
        ∃ k s s1,
          loop_state_after P (label_copy label) cU cV (swizzled_bytes P bits) (bits / 8) k
              (loop_entry key md rk0) = some s
          ∧ loop_body P (label_copy label) cU cV (swizzled_bytes P bits) s = Step.err rval s1
          ∧ (tpm_kdfa P fuel hashAlg key label cU cV bits rk0).size = some (k * md.size)) := by
  obtain ⟨rk, log, he⟩ := Outcome.rval_eq_some h
  obtain ⟨_, hc⟩ := tpm_kdfa_returned he
  rw [he]
  simp only [Outcome.size]
  rcases hc with ⟨hmd, _, hrk, _⟩ | ⟨md, hmd, hc⟩
  · subst hrk
    refine ⟨fun _ => rfl, ?_⟩
    intro md1 h1
    rw [hmd] at h1
    cases h1
  · rcases hc with ⟨ha, _, hrk, _⟩ | ⟨_, hi, _, hrk, _⟩ | ⟨ha, hi, s1, hw, hrk, _⟩
      | ⟨_, _, _, _, hr, _⟩
    · subst hrk
      refine ⟨fun _ => rfl, ?_⟩
      intro md1 _ h2
      rw [ha] at h2
      cases h2
    · subst hrk
      refine ⟨fun _ => rfl, ?_⟩
      intro md1 h1 _ h3
      rw [hmd] at h1
      cases h1
      rw [hi] at h3
      cases h3
    · obtain ⟨k, s, _, hs, _, hb⟩ := kdfa_while_err _ _ _ _ _ _ _ _ _ _ hw
      obtain ⟨_, hsz⟩ := loop_state_after_size P hP _ _ _ _ _ key md k
        (loop_entry key md rk0) s rfl hs
      have hrk1 : rk.size = k * md.size := by
        rw [hrk, (loop_body_err_state _ _ _ _ _ _ _ _ hb).1, hsz]
        simp [loop_entry]
      constructor
      · intro hpre
        rcases hpre with h1 | h1 | ⟨md1, h1, h2⟩
        · rw [hmd] at h1; cases h1
        · rw [ha] at h1; cases h1
        · rw [hmd] at h1
          cases h1
          rw [hi] at h2
          cases h2
      · intro md1 h1 _ _
        rw [hmd] at h1
        cases h1
        exact ⟨k, s, s1, hs, hb, by rw [hrk1]⟩
    · exact absurd hr hne

/-- Witness of C4 (amended): the failure of the second `HMAC_Final` with SHA-1,
after one complete iteration. -/
theorem kdfa_failure_size_witness :
    (tpm_kdfa (failing_host false 1024 toy_mac 14) 2 TPM2_ALG_SHA1 [] [] [] [] 320
        { size := 0, buffer := [] }).rval = some TSS2_RC.TPM2_RC_MEMORY
    ∧ ∃ k s s1,
        loop_state_after (failing_host false 1024 toy_mac 14) (label_copy []) [] []
            (swizzled_bytes (failing_host false 1024 toy_mac 14) 320) (320 / 8) k
            (loop_entry [] EVP_MD.sha1 { size := 0, buffer := [] }) = some s
        ∧ loop_body (failing_host false 1024 toy_mac 14) (label_copy []) [] []
            (swizzled_bytes (failing_host false 1024 toy_mac 14) 320) s
          = Step.err TSS2_RC.TPM2_RC_MEMORY s1
        ∧ (tpm_kdfa (failing_host false 1024 toy_mac 14) 2 TPM2_ALG_SHA1 [] [] [] [] 320
            { size := 0, buffer := [] }).size = some (k * EVP_MD.sha1.size) :=
  ⟨by decide,
    (kdfa_failure_size (failing_host false 1024 toy_mac 14)
      (failing_host_digest_sized false 1024 toy_mac toy_mac_length 14) 2 TPM2_ALG_SHA1
      [] [] [] [] 320 { size := 0, buffer := [] } TSS2_RC.TPM2_RC_MEMORY (by decide)
      (by decide)).2 EVP_MD.sha1 (by decide) (by decide) (by decide)⟩

/-! ## C5: unsupported algorithm -/

theorem digest_none_iff (hashAlg : Nat) :
    tpm_algorithm_to_openssl_digest hashAlg = none
      ↔ hashAlg ∉ [TPM2_ALG_SHA1, TPM2_ALG_SHA256, TPM2_ALG_SHA384, TPM2_ALG_SHA512] := by
  unfold tpm_algorithm_to_openssl_digest
  simp only [List.mem_cons, List.mem_singleton, List.not_mem_nil, or_false, not_or]
  split_ifs with h1 h2 h3 h4 <;> simp [*]

/-- C5. Unsupported algorithm is rejected first: for a label that fits the label
buffer, `tpm_kdfa` returns `TPM2_RC_HASH` if and only if the selector is none
of SHA-1, SHA-256, SHA-384 and SHA-512, and then no call on an HMAC context
is made (none is allocated) and the output has size 0. -/
theorem kdfa_unsupported_algorithm_rejected (P : Host) (fuel hashAlg : Nat)
    (key label cU cV : List Nat) (bits : Nat) (rk0 : TPM2B)
    (hlabel : label_size label ≤ TPM2B_DIGEST_BUFFER) :
    ((tpm_kdfa P fuel hashAlg key label cU cV bits rk0).rval = some TSS2_RC.TPM2_RC_HASH
      ↔ hashAlg ∉ [TPM2_ALG_SHA1, TPM2_ALG_SHA256, TPM2_ALG_SHA384, TPM2_ALG_SHA512])
    ∧ (hashAlg ∉ [TPM2_ALG_SHA1, TPM2_ALG_SHA256, TPM2_ALG_SHA384, TPM2_ALG_SHA512] →
        tpm_kdfa P fuel hashAlg key label cU cV bits rk0
          = Outcome.returned TSS2_RC.TPM2_RC_HASH { size := 0, buffer := rk0.buffer } []) := by
  have hret : hashAlg ∉ [TPM2_ALG_SHA1, TPM2_ALG_SHA256, TPM2_ALG_SHA384, TPM2_ALG_SHA512] →
      tpm_kdfa P fuel hashAlg key label cU cV bits rk0
        = Outcome.returned TSS2_RC.TPM2_RC_HASH { size := 0, buffer := rk0.buffer } [] := by
    intro hn
    have hmd := (digest_none_iff hashAlg).mpr hn
    simp only [tpm_kdfa, if_neg (Nat.not_lt.mpr hlabel), hmd]
  refine ⟨⟨?_, ?_⟩, hret⟩
  · intro h
    obtain ⟨rk, log, he⟩ := Outcome.rval_eq_some h
    obtain ⟨_, hc⟩ := tpm_kdfa_returned he
    rcases hc with ⟨hmd, _⟩ | ⟨md, hmd, hc⟩
    · exact (digest_none_iff hashAlg).mp hmd
    · rcases hc with ⟨_, hr, _⟩ | ⟨_, _, hr, _⟩ | ⟨_, _, s, hw, _⟩ | ⟨_, _, _, _, hr, _⟩
      · cases hr
      · cases hr
      · rcases kdfa_while_err_code _ _ _ _ _ _ _ _ _ _ hw with hr | hr <;> cases hr
      · cases hr
  · intro hn
    rw [hret hn]
    rfl

/-- Witness of C5: the selector `TPM2_ALG_NULL = 0x0010` with the label "ATH". -/
theorem kdfa_unsupported_algorithm_rejected_witness :
    tpm_kdfa (ideal_host false 1024 toy_mac) 1 0x0010 [1, 2, 3] [65, 84, 72] [] [] 256
        { size := 5, buffer := [9, 9, 9, 9, 9] }
      = Outcome.returned TSS2_RC.TPM2_RC_HASH { size := 0, buffer := [9, 9, 9, 9, 9] } [] :=
  (kdfa_unsupported_algorithm_rejected (ideal_host false 1024 toy_mac) 1 0x0010 [1, 2, 3]
    [65, 84, 72] [] [] 256 { size := 5, buffer := [9, 9, 9, 9, 9] } (by decide)).2 (by decide)

/-! ## C6: return codes of the HMAC stages -/

theorem loop_body_bad_value (P : Host) (lab cU cV bb : List Nat) (s s1 : LoopState)
    (h : loop_body P lab cU cV bb s = Step.err TSS2_RC.TSS2_SYS_RC_BAD_VALUE s1) :
    P.hmacOk s1.log = true := by
  rcases loop_body_cases P lab cU cV bb s with ⟨pre, d, _, _, hb⟩ | ⟨_, hb⟩ | ⟨hk, _, hb⟩
    | ⟨_, _, hb⟩
  · rw [hb] at h; simp at h
  · rw [hb] at h; simp at h
  · rw [hb] at h
    simp only [Step.err.injEq, true_and] at h
    subst h
    exact hk
  · rw [hb] at h; simp at h

theorem snoc_free_inj {l pre : List HmacCall} {c : HmacCall}
    (h : l ++ [HmacCall.HMAC_CTX_free] = pre ++ [c, HmacCall.HMAC_CTX_free]) :
    l = pre ++ [c] := by
  have h2 : l ++ [HmacCall.HMAC_CTX_free] = (pre ++ [c]) ++ [HmacCall.HMAC_CTX_free] := by
    rw [h]; simp
  exact List.append_cancel_right h2

/-- Counterexample to C6: a failing `HMAC_Init_ex` (2nd call), a failing
`HMAC_Update` (3rd call) and a failing `HMAC_Final` (8th call) all make
`tpm_kdfa` return the same code, `TPM2_RC_MEMORY`. -/
theorem kdfa_hmac_failures_same_code :
    (tpm_kdfa (failing_host false 1024 toy_mac 2) 1 TPM2_ALG_SHA1 [] [] [] [] 160
        { size := 0, buffer := [] }).rval = some TSS2_RC.TPM2_RC_MEMORY
    ∧ (tpm_kdfa (failing_host false 1024 toy_mac 2) 1 TPM2_ALG_SHA1 [] [] [] [] 160
        { size := 0, buffer := [] }).calls
      = [HmacCall.HMAC_CTX_new, HmacCall.HMAC_Init_ex [] EVP_MD.sha1, HmacCall.HMAC_CTX_free]
    ∧ (tpm_kdfa (failing_host false 1024 toy_mac 3) 1 TPM2_ALG_SHA1 [] [] [] [] 160
        { size := 0, buffer := [] }).rval = some TSS2_RC.TPM2_RC_MEMORY
    ∧ (tpm_kdfa (failing_host false 1024 toy_mac 3) 1 TPM2_ALG_SHA1 [] [] [] [] 160
        { size := 0, buffer := [] }).calls
      = [HmacCall.HMAC_CTX_new, HmacCall.HMAC_Init_ex [] EVP_MD.sha1,
          HmacCall.HMAC_Update [0, 0, 0, 1], HmacCall.HMAC_CTX_free]
    ∧ (tpm_kdfa (failing_host false 1024 toy_mac 8) 1 TPM2_ALG_SHA1 [] [] [] [] 160
        { size := 0, buffer := [] }).rval = some TSS2_RC.TPM2_RC_MEMORY
    ∧ (tpm_kdfa (failing_host false 1024 toy_mac 8) 1 TPM2_ALG_SHA1 [] [] [] [] 160
        { size := 0, buffer := [] }).calls
      = [HmacCall.HMAC_CTX_new, HmacCall.HMAC_Init_ex [] EVP_MD.sha1,
          HmacCall.HMAC_Update [0, 0, 0, 1], HmacCall.HMAC_Update [0],
          HmacCall.HMAC_Update [], HmacCall.HMAC_Update [],
          HmacCall.HMAC_Update [0, 0, 0, 160], HmacCall.HMAC_Final,
          HmacCall.HMAC_CTX_free] := by
  decide

/-- C6 (amended). Every failure of a call on the allocated HMAC context, be it
`HMAC_Init_ex`, `HMAC_Update` or `HMAC_Final`, makes `tpm_kdfa` return the one
code `TPM2_RC_MEMORY`: when the last call before the release failed, the
return code is `TPM2_RC_MEMORY`, so the code alone does not tell the stage. -/
theorem kdfa_hmac_failure_code (P : Host) (fuel hashAlg : Nat)
    (key label cU cV : List Nat) (bits : Nat) (rk0 : TPM2B)
    (pre : List HmacCall) (c : HmacCall)
    (hlog : (tpm_kdfa P fuel hashAlg key label cU cV bits rk0).calls
      = pre ++ [c, HmacCall.HMAC_CTX_free])
    (hfail : P.hmacOk (pre ++ [c]) = false) :
    (tpm_kdfa P fuel hashAlg key label cU cV bits rk0).rval
      = some TSS2_RC.TPM2_RC_MEMORY := by
  cases he : tpm_kdfa P fuel hashAlg key label cU cV bits rk0 with
  | label_overflow =>
    rw [he] at hlog
    simp [Outcome.calls] at hlog
  | out_of_fuel =>
    rw [he] at hlog
    simp [Outcome.calls] at hlog
  | returned rval rk log =>
    rw [he] at hlog
    simp only [Outcome.calls] at hlog
    simp only [Outcome.rval, Option.some.injEq]
    obtain ⟨_, hc⟩ := tpm_kdfa_returned he
    rcases hc with ⟨_, _, _, hl⟩ | ⟨md, hmd, hc⟩
    · rw [hl] at hlog
      simp at hlog
    · rcases hc with ⟨_, _, _, hl⟩ | ⟨_, _, hr, _⟩ | ⟨_, _, s1, hw, _, hl⟩
        | ⟨_, hi, s, hw, _, _, hl⟩
      · rw [hl] at hlog
        have := congrArg List.length hlog
        simp at this
      · exact hr
      · rcases kdfa_while_err_code _ _ _ _ _ _ _ _ _ _ hw with hr | hr
        · exact hr
        · subst hr
          obtain ⟨k, s, _, _, _, hb⟩ := kdfa_while_err _ _ _ _ _ _ _ _ _ _ hw
          have hk := loop_body_bad_value _ _ _ _ _ _ _ hb
          rw [hl] at hlog
          rw [snoc_free_inj hlog, hfail] at hk
          cases hk
      · have hinv := (kdfa_while_rule P (label_copy label) cU cV (swizzled_bytes P bits)
          (bits / 8) (fun s => P.hmacOk s.log = true) (fun _ _ => True)
          (fun s s1 _ _ hb => (loop_body_next_state _ _ _ _ _ _ _ hb).2.2.1)
          (fun _ _ _ _ _ _ => trivial) fuel (loop_entry key md rk0) hi).1 s hw
        rw [hl] at hlog
        have hk := hinv.1
        rw [snoc_free_inj hlog, hfail] at hk
        cases hk

/-- Witness of C6 (amended): a failing `HMAC_Final`, the 8th call. -/
theorem kdfa_hmac_failure_code_witness :
    (tpm_kdfa (failing_host false 1024 toy_mac 8) 1 TPM2_ALG_SHA1 [] [] [] [] 160
        { size := 0, buffer := [] }).rval = some TSS2_RC.TPM2_RC_MEMORY :=
  kdfa_hmac_failure_code (failing_host false 1024 toy_mac 8) 1 TPM2_ALG_SHA1
    [] [] [] [] 160 { size := 0, buffer := [] }
    [HmacCall.HMAC_CTX_new, HmacCall.HMAC_Init_ex [] EVP_MD.sha1,
      HmacCall.HMAC_Update [0, 0, 0, 1], HmacCall.HMAC_Update [0],
      HmacCall.HMAC_Update [], HmacCall.HMAC_Update [],
      HmacCall.HMAC_Update [0, 0, 0, 160]]
    HmacCall.HMAC_Final (by decide) (by decide)

/-! ## C7: label length boundary -/

/-- C7 (defect of the code). A label of 63 characters (64 bytes with its
terminator) fills the label buffer and the derivation succeeds; a label one
byte longer is not rejected: no length is checked, the copy loop stores its
65th byte past the end of the 64-byte buffer, whatever the other arguments,
and no error code is returned for it. -/
theorem kdfa_label_one_byte_too_long :
    label_size (List.replicate 63 65) = TPM2B_DIGEST_BUFFER
    ∧ (tpm_kdfa (ideal_host false 1024 toy_mac) 1 TPM2_ALG_SHA256 [] (List.replicate 63 65)
        [] [] 256 { size := 0, buffer := [] }).rval = some TSS2_RC.TPM2_RC_SUCCESS
    ∧ (∀ (label : List Nat), (∀ c ∈ label, c ≠ 0) → label.length + 1 = 65 →
        ∀ (P : Host) (fuel hashAlg : Nat) (key cU cV : List Nat) (bits : Nat) (rk0 : TPM2B),
          tpm_kdfa P fuel hashAlg key label cU cV bits rk0 = Outcome.label_overflow)
    ∧ (∀ (P : Host) (fuel hashAlg : Nat) (key cU cV : List Nat) (bits : Nat) (rk0 : TPM2B),
        tpm_kdfa P fuel hashAlg key (List.replicate 64 65) cU cV bits rk0
          = Outcome.label_overflow) := by
  have hgen : ∀ (label : List Nat), (∀ c ∈ label, c ≠ 0) → label.length + 1 = 65 →
      ∀ (P : Host) (fuel hashAlg : Nat) (key cU cV : List Nat) (bits : Nat) (rk0 : TPM2B),
        tpm_kdfa P fuel hashAlg key label cU cV bits rk0 = Outcome.label_overflow := by
    intro label h0 hlen P fuel hashAlg key cU cV bits rk0
    have hs : label_size label = 65 := by
      unfold label_size
      rw [label_scan_eq label h0, hlen]
    simp [tpm_kdfa, hs, TPM2B_DIGEST_BUFFER]
  refine ⟨by decide, by decide, hgen, ?_⟩
  intro P fuel hashAlg key cU cV bits rk0
  exact hgen (List.replicate 64 65) (by simp) (by simp) P fuel hashAlg key cU cV bits rk0

/-! ## C8: byte order of the host -/

theorem hmac_update_list_congr (P Q : Host) (hok : P.hmacOk = Q.hmacOk) :
    ∀ (ds : List (List Nat)) (log : List HmacCall),
      hmac_update_list P ds log = hmac_update_list Q ds log := by
  intro ds
  induction ds with
  | nil => intro log; rfl
  | cons d ds ih =>
    intro log
    simp only [hmac_update_list, hok, ih]

theorem loop_body_congr (P Q : Host) (hok : P.hmacOk = Q.hmacOk)
    (hout : P.hmacOut = Q.hmacOut) (hcap : P.capacity = Q.capacity)
    (lab cU cV bb : List Nat) (s : LoopState) :
    loop_body P lab cU cV bb s = loop_body Q lab cU cV bb s := by
  simp only [loop_body, swizzled_bytes_eq, hmac_update_list_congr P Q hok, hok, hout, hcap]

theorem kdfa_while_congr (P Q : Host) (hok : P.hmacOk = Q.hmacOk)
    (hout : P.hmacOut = Q.hmacOut) (hcap : P.capacity = Q.capacity)
    (lab cU cV bb : List Nat) (bytes : Nat) :
    ∀ (fuel : Nat) (s : LoopState),
      kdfa_while P lab cU cV bb bytes fuel s = kdfa_while Q lab cU cV bb bytes fuel s := by
  intro fuel
  induction fuel with
  | zero => intro s; rfl
  | succ n ih =>
    intro s
    simp only [kdfa_while, loop_body_congr P Q hok hout hcap, ih]

/-- The result of `tpm_kdfa` does not depend on the byte order of the host. -/
theorem tpm_kdfa_congr (P Q : Host) (hok : P.hmacOk = Q.hmacOk)
    (hout : P.hmacOut = Q.hmacOut) (hcap : P.capacity = Q.capacity)
    (fuel hashAlg : Nat) (key label cU cV : List Nat) (bits : Nat) (rk0 : TPM2B) :
    tpm_kdfa P fuel hashAlg key label cU cV bits rk0
      = tpm_kdfa Q fuel hashAlg key label cU cV bits rk0 := by
  simp only [tpm_kdfa, swizzled_bytes_eq, kdfa_while_congr P Q hok hout hcap, hok]

/-- C8. Host-independent big-endian encoding: the four bytes stored for a value are
its big-endian encoding on a little-endian host (byte swap, then native
store) and on a big-endian host (native store); so the bytes `tpm_kdfa` feeds
for the counter and for `bits` are `BE32` of them on every host, and the whole
derivation on a little-endian host equals that on a big-endian host. -/
theorem kdfa_encoding_host_independent :
    (∀ v : Nat, store_u32 false (tpm2_util_endian_swap_32 v) = BE32 v)
    ∧ (∀ v : Nat, store_u32 true v = BE32 v)
    ∧ (∀ (P : Host) (v : Nat), swizzled_bytes P v = BE32 v)
    ∧ (∀ (P : Host) (lab cU cV bb : List Nat) (i : Nat),
        iteration_updates P lab cU cV bb i
          = [HmacCall.HMAC_Update (BE32 i), HmacCall.HMAC_Update lab,
              HmacCall.HMAC_Update cU, HmacCall.HMAC_Update cV, HmacCall.HMAC_Update bb])
    ∧ (∀ (P : Host) (fuel hashAlg : Nat) (key label cU cV : List Nat) (bits : Nat)
        (rk0 : TPM2B),
        tpm_kdfa { P with is_big_endian := false } fuel hashAlg key label cU cV bits rk0
          = tpm_kdfa { P with is_big_endian := true } fuel hashAlg key label cU cV bits rk0) := by
  refine ⟨?_, ?_, swizzled_bytes_eq, ?_, ?_⟩
  · intro v
    have h := swizzled_bytes_eq (ideal_host false 0 toy_mac) v
    simpa [swizzled_bytes, ideal_host] using h
  · intro v
    rfl
  · intro P lab cU cV bb i
    simp only [iteration_updates, swizzled_bytes_eq]
  · intro P fuel hashAlg key label cU cV bits rk0
    exact tpm_kdfa_congr { P with is_big_endian := false } { P with is_big_endian := true }
      rfl rfl rfl fuel hashAlg key label cU cV bits rk0

/-! ## C9: capacity invariant -/

/-- C9. Capacity invariant: on every return of `tpm_kdfa` the `size` field of the
output is at most the capacity of the buffer; on success `bits / 8` is at most
the capacity; and the accumulated length at the head of the loop after any
number of iterations is at most the capacity. -/
theorem kdfa_capacity_invariant (P : Host) (fuel hashAlg : Nat)
    (key label cU cV : List Nat) (bits : Nat) (rk0 : TPM2B) (rval : TSS2_RC)
    (h : (tpm_kdfa P fuel hashAlg key label cU cV bits rk0).rval = some rval) :
    (∃ n, (tpm_kdfa P fuel hashAlg key label cU cV bits rk0).size = some n
        ∧ n ≤ P.capacity)
    ∧ (rval = TSS2_RC.TPM2_RC_SUCCESS → bits / 8 ≤ P.capacity)
    ∧ (∀ (md : EVP_MD) (k : Nat) (s : LoopState),
        loop_state_after P (label_copy label) cU cV (swizzled_bytes P bits) (bits / 8) k
            (loop_entry key md rk0) = some s →
        s.resultKey.size ≤ P.capacity) := by
  have hstates : ∀ (md : EVP_MD) (k : Nat) (s : LoopState),
      loop_state_after P (label_copy label) cU cV (swizzled_bytes P bits) (bits / 8) k
          (loop_entry key md rk0) = some s →
      s.resultKey.size ≤ P.capacity := by
    intro md k s hs
    exact loop_state_after_rule P _ _ _ _ _ (fun s => s.resultKey.size ≤ P.capacity)
      (fun s s1 _ _ hb => (loop_body_next_state _ _ _ _ _ _ _ hb).2.2.2.2.1)
      k (loop_entry key md rk0) s (Nat.zero_le _) hs
  obtain ⟨rk, log, he⟩ := Outcome.rval_eq_some h
  obtain ⟨_, hc⟩ := tpm_kdfa_returned he
  rw [he]
  simp only [Outcome.size, Option.some.injEq, exists_eq_left']
  rcases hc with ⟨_, hr, hrk, _⟩ | ⟨md, hmd, hc⟩
  · subst hrk hr
    exact ⟨Nat.zero_le _, fun hr => (by cases hr), hstates⟩
  · rcases hc with ⟨_, hr, hrk, _⟩ | ⟨_, _, hr, hrk, _⟩ | ⟨_, _, s1, hw, hrk, _⟩
      | ⟨_, _, s, hw, _, hrk, _⟩
    · subst hrk hr
      exact ⟨Nat.zero_le _, fun hr => (by cases hr), hstates⟩
    · subst hrk hr
      exact ⟨Nat.zero_le _, fun hr => (by cases hr), hstates⟩
    · obtain ⟨k, s, _, hs, _, hb⟩ := kdfa_while_err _ _ _ _ _ _ _ _ _ _ hw
      have h1 := hstates md k s hs
      obtain ⟨h2, _, h3⟩ := loop_body_err_state _ _ _ _ _ _ _ _ hb
      refine ⟨by rw [hrk, h2]; exact h1, ?_, hstates⟩
      intro hr
      rcases h3 with h3 | h3 <;> rw [h3] at hr <;> cases hr
    · obtain ⟨k, _, hs, hge⟩ := kdfa_while_next _ _ _ _ _ _ _ _ _ hw
      have h1 := hstates md k s hs
      have h2 : bits / 8 ≤ P.capacity := by omega
      subst hrk
      exact ⟨h2, fun _ => h2, hstates⟩

/-- Witness of C9: with SHA-1 and a capacity of 64 bytes, 512 bits need a fourth
block that does not fit; the call returns `TSS2_SYS_RC_BAD_VALUE` with the 60
bytes of three blocks. -/
theorem kdfa_capacity_invariant_witness :
    (tpm_kdfa (ideal_host false 64 toy_mac) 4 TPM2_ALG_SHA1 [] [] [] [] 512
        { size := 0, buffer := [] }).rval = some TSS2_RC.TSS2_SYS_RC_BAD_VALUE
    ∧ (tpm_kdfa (ideal_host false 64 toy_mac) 4 TPM2_ALG_SHA1 [] [] [] [] 512
        { size := 0, buffer := [] }).size = some 60
    ∧ ∃ n, (tpm_kdfa (ideal_host false 64 toy_mac) 4 TPM2_ALG_SHA1 [] [] [] [] 512
        { size := 0, buffer := [] }).size = some n ∧ n ≤ 64 :=
  ⟨by decide, by decide,
    (kdfa_capacity_invariant (ideal_host false 64 toy_mac) 4 TPM2_ALG_SHA1 [] [] [] [] 512
      { size := 0, buffer := [] } TSS2_RC.TSS2_SYS_RC_BAD_VALUE (by decide)).1⟩

/-! ## C10: release of the HMAC context -/

theorem loop_body_err_log (P : Host) (lab cU cV bb : List Nat) (s : LoopState)
    (r : TSS2_RC) (s1 : LoopState) (hs : HmacCall.HMAC_CTX_free ∉ s.log)
    (h : loop_body P lab cU cV bb s = Step.err r s1) :
    HmacCall.HMAC_CTX_free ∉ s1.log := by
  rcases loop_body_cases P lab cU cV bb s with ⟨pre, d, hpre, _, hb⟩ | ⟨_, hb⟩ | ⟨_, _, hb⟩
    | ⟨_, _, hb⟩
  · rw [hb] at h
    simp only [Step.err.injEq] at h
    obtain ⟨_, h2⟩ := h
    subst h2
    simp only [List.mem_append, List.mem_singleton, not_or]
    refine ⟨⟨hs, ?_⟩, by simp⟩
    intro hm
    obtain ⟨e, he⟩ := hpre _ hm
    cases he
  · rw [hb] at h
    simp only [Step.err.injEq] at h
    obtain ⟨_, h2⟩ := h
    subst h2
    simp [iteration_updates, hs]
  · rw [hb] at h
    simp only [Step.err.injEq] at h
    obtain ⟨_, h2⟩ := h
    subst h2
    simp [iteration_updates, hs]
  · rw [hb] at h
    simp at h

theorem loop_body_next_log (P : Host) (lab cU cV bb : List Nat) (s s1 : LoopState)
    (hs : HmacCall.HMAC_CTX_free ∉ s.log)
    (h : loop_body P lab cU cV bb s = Step.next s1) :
    HmacCall.HMAC_CTX_free ∉ s1.log := by
  rw [(loop_body_next_state _ _ _ _ _ _ _ h).2.1]
  simp [iteration_updates, hs]

theorem count_free_snoc (l : List HmacCall) (h : HmacCall.HMAC_CTX_free ∉ l) :
    (l ++ [HmacCall.HMAC_CTX_free]).count HmacCall.HMAC_CTX_free = 1
      ∧ (l ++ [HmacCall.HMAC_CTX_free]).getLast? = some HmacCall.HMAC_CTX_free := by
  constructor
  · rw [List.count_append, List.count_eq_zero_of_not_mem h]
    rfl
  · simp

/-- C10. HMAC context released exactly once: when `tpm_kdfa` returns after a
successful allocation of the context, the release `hmac_del` occurs exactly
once among the calls and is the last of them, so no call follows it; when no
context was allocated (unsupported algorithm or failed allocation) there is
no release. -/
theorem kdfa_context_released_once (P : Host) (fuel hashAlg : Nat)
    (key label cU cV : List Nat) (bits : Nat) (rk0 : TPM2B) (rval : TSS2_RC)
    (h : (tpm_kdfa P fuel hashAlg key label cU cV bits rk0).rval = some rval) :
    ((tpm_algorithm_to_openssl_digest hashAlg ≠ none
          ∧ P.hmacOk [HmacCall.HMAC_CTX_new] = true) →
        (tpm_kdfa P fuel hashAlg key label cU cV bits rk0).calls.count
            HmacCall.HMAC_CTX_free = 1
        ∧ (tpm_kdfa P fuel hashAlg key label cU cV bits rk0).calls.getLast?
            = some HmacCall.HMAC_CTX_free)
    ∧ (¬ (tpm_algorithm_to_openssl_digest hashAlg ≠ none
          ∧ P.hmacOk [HmacCall.HMAC_CTX_new] = true) →
        (tpm_kdfa P fuel hashAlg key label cU cV bits rk0).calls.count
            HmacCall.HMAC_CTX_free = 0) := by
  obtain ⟨rk, log, he⟩ := Outcome.rval_eq_some h
  obtain ⟨_, hc⟩ := tpm_kdfa_returned he
  rw [he]
  simp only [Outcome.calls]
  have hentry : ∀ md, HmacCall.HMAC_CTX_free ∉ (loop_entry key md rk0).log := by
    intro md
    simp [loop_entry]
  rcases hc with ⟨hmd, _, _, hl⟩ | ⟨md, hmd, hc⟩
  · subst hl
    exact ⟨fun ha => absurd hmd ha.1, fun _ => rfl⟩
  · rcases hc with ⟨ha, _, _, hl⟩ | ⟨ha, _, _, _, hl⟩ | ⟨ha, _, s1, hw, _, hl⟩
      | ⟨ha, _, s, hw, _, _, hl⟩
    · subst hl
      refine ⟨fun hh => ?_, fun _ => by decide⟩
      rw [ha] at hh
      exact absurd hh.2 (by decide)
    · subst hl
      refine ⟨fun _ => ⟨by simp, by simp⟩, fun hn => absurd ⟨by rw [hmd]; simp, ha⟩ hn⟩
    · have hr := (kdfa_while_rule P (label_copy label) cU cV (swizzled_bytes P bits)
        (bits / 8) (fun s => HmacCall.HMAC_CTX_free ∉ s.log)
        (fun _ s => HmacCall.HMAC_CTX_free ∉ s.log)
        (fun s s1 hs _ hb => loop_body_next_log _ _ _ _ _ _ _ hs hb)
        (fun s r s1 hs _ hb => loop_body_err_log _ _ _ _ _ _ _ _ hs hb)
        fuel (loop_entry key md rk0) (hentry md)).2 rval s1 hw
      subst hl
      exact ⟨fun _ => count_free_snoc _ hr, fun hn => absurd ⟨by rw [hmd]; simp, ha⟩ hn⟩
    · have hr := ((kdfa_while_rule P (label_copy label) cU cV (swizzled_bytes P bits)
        (bits / 8) (fun s => HmacCall.HMAC_CTX_free ∉ s.log)
        (fun _ s => HmacCall.HMAC_CTX_free ∉ s.log)
        (fun s s1 hs _ hb => loop_body_next_log _ _ _ _ _ _ _ hs hb)
        (fun s r s1 hs _ hb => loop_body_err_log _ _ _ _ _ _ _ _ hs hb)
        fuel (loop_entry key md rk0) (hentry md)).1 s hw).1
      subst hl
      exact ⟨fun _ => count_free_snoc _ hr, fun hn => absurd ⟨by rw [hmd]; simp, ha⟩ hn⟩

/-- Witness of C10: the second `HMAC_Final` fails after one complete iteration;
the context is released once, as the last call. -/
theorem kdfa_context_released_once_witness :
    (tpm_kdfa (failing_host false 1024 toy_mac 14) 2 TPM2_ALG_SHA1 [] [] [] [] 320
        { size := 0, buffer := [] }).calls.count HmacCall.HMAC_CTX_free = 1
    ∧ (tpm_kdfa (failing_host false 1024 toy_mac 14) 2 TPM2_ALG_SHA1 [] [] [] [] 320
        { size := 0, buffer := [] }).calls.getLast? = some HmacCall.HMAC_CTX_free :=
  (kdfa_context_released_once (failing_host false 1024 toy_mac 14) 2 TPM2_ALG_SHA1
    [] [] [] [] 320 { size := 0, buffer := [] } TSS2_RC.TPM2_RC_MEMORY (by decide)).1
    ⟨by decide, by decide⟩

/-! ## Unrolling the loop -/

/-- Once the label is copied, the digest found, the context allocated and
initialised, `tpm_kdfa` is its loop followed by the truncation and the
release. -/
theorem tpm_kdfa_in_loop (P : Host) (fuel hashAlg : Nat) (md : EVP_MD)
    (key label cU cV : List Nat) (bits : Nat) (rk0 : TPM2B)
    (hlabel : label_size label ≤ TPM2B_DIGEST_BUFFER)
    (hmd : tpm_algorithm_to_openssl_digest hashAlg = some md)
    (ha : P.hmacOk [HmacCall.HMAC_CTX_new] = true)
    (hi : P.hmacOk [HmacCall.HMAC_CTX_new, HmacCall.HMAC_Init_ex key md] = true) :
    tpm_kdfa P fuel hashAlg key label cU cV bits rk0
      = match kdfa_while P (label_copy label) cU cV (swizzled_bytes P bits) (bits / 8) fuel
          (loop_entry key md rk0) with
        | none => Outcome.out_of_fuel
        | some (Step.err rval s) =>
          Outcome.returned rval s.resultKey (s.log ++ [HmacCall.HMAC_CTX_free])
        | some (Step.next s) =>
          Outcome.returned TSS2_RC.TPM2_RC_SUCCESS
            { size := bits / 8, buffer := s.resultKey.buffer }
            (s.log ++ [HmacCall.HMAC_CTX_free]) := by
  simp only [tpm_kdfa, if_neg (Nat.not_lt.mpr hlabel), hmd, ha, Bool.not_true,
    Bool.false_eq_true, if_false, List.singleton_append, hi, loop_entry]

/-- After `k` complete iterations the loop goes on from the state reached. -/
theorem kdfa_while_after (P : Host) (lab cU cV bb : List Nat) (bytes : Nat) :
    ∀ (k f : Nat) (s0 s : LoopState),
      loop_state_after P lab cU cV bb bytes k s0 = some s →
      kdfa_while P lab cU cV bb bytes (k + f) s0 = kdfa_while P lab cU cV bb bytes f s := by
  intro k
  induction k with
  | zero =>
    intro f s0 s h
    simp only [loop_state_after, Option.some.injEq] at h
    subst h
    simp
  | succ n ih =>
    intro f s0 s h
    by_cases hlt : s0.resultKey.size < bytes
    · cases hb : loop_body P lab cU cV bb s0 with
      | next s1 =>
        simp only [loop_state_after, hlt, if_true, hb] at h
        have e : n + 1 + f = (n + f) + 1 := by omega
        rw [e]
        simp only [kdfa_while, hlt, if_true, hb]
        exact ih f s1 s h
      | err r s1 => simp [loop_state_after, hlt, hb] at h
    · simp [loop_state_after, hlt] at h

/-- More fuel does not change the result of a loop that reached its exit. -/
theorem kdfa_while_mono (P : Host) (lab cU cV bb : List Nat) (bytes : Nat) :
    ∀ (f d : Nat) (s : LoopState) (st : Step),
      kdfa_while P lab cU cV bb bytes f s = some st →
      kdfa_while P lab cU cV bb bytes (f + d) s = some st := by
  intro f
  induction f with
  | zero =>
    intro d s st h
    by_cases hlt : s.resultKey.size < bytes
    · simp [kdfa_while, hlt] at h
    · simp only [kdfa_while, hlt, if_false] at h
      rw [kdfa_while_done _ _ _ _ _ _ _ _ hlt]
      exact h
  | succ n ih =>
    intro d s st h
    have e : n + 1 + d = (n + d) + 1 := by omega
    rw [e]
    by_cases hlt : s.resultKey.size < bytes
    · cases hb : loop_body P lab cU cV bb s with
      | next s1 =>
        simp only [kdfa_while, hlt, if_true, hb] at h ⊢
        exact ih d s1 st h
      | err r s1 =>
        simp only [kdfa_while, hlt, if_true, hb] at h ⊢
        exact h
    · simp only [kdfa_while, hlt, if_false] at h ⊢
      exact h

/-- The last of `k + 1` iterations: the state after `k` iterations passes the
loop test and the body takes it to the state after `k + 1`. -/
theorem loop_state_after_succ (P : Host) (lab cU cV bb : List Nat) (bytes : Nat) :
    ∀ (k : Nat) (s0 s : LoopState),
      loop_state_after P lab cU cV bb bytes (k + 1) s0 = some s →
      ∃ s1, loop_state_after P lab cU cV bb bytes k s0 = some s1
        ∧ s1.resultKey.size < bytes ∧ loop_body P lab cU cV bb s1 = Step.next s := by
  intro k
  induction k with
  | zero =>
    intro s0 s h
    by_cases hlt : s0.resultKey.size < bytes
    · cases hb : loop_body P lab cU cV bb s0 with
      | next s1 =>
        simp only [loop_state_after, hlt, if_true, hb, Option.some.injEq] at h
        subst h
        exact ⟨s0, rfl, hlt, hb⟩
      | err r s1 => simp [loop_state_after, hlt, hb] at h
    · simp [loop_state_after, hlt] at h
  | succ n ih =>
    intro s0 s h
    by_cases hlt : s0.resultKey.size < bytes
    · cases hb : loop_body P lab cU cV bb s0 with
      | next s1 =>
        have h2 : loop_state_after P lab cU cV bb bytes (n + 1) s1 = some s := by
          simpa only [loop_state_after, hlt, if_true, hb] using h
        obtain ⟨s2, h3, h4, h5⟩ := ih s1 s h2
        refine ⟨s2, ?_, h4, h5⟩
        simp only [loop_state_after, hlt, if_true, hb]
        exact h3
      | err r s1 => simp [loop_state_after, hlt, hb] at h
    · simp [loop_state_after, hlt] at h

/-- Conversely, one more iteration from the state after `k`. -/
theorem loop_state_after_step (P : Host) (lab cU cV bb : List Nat) (bytes : Nat) :
    ∀ (k : Nat) (s0 s1 s : LoopState),
      loop_state_after P lab cU cV bb bytes k s0 = some s1 →
      s1.resultKey.size < bytes → loop_body P lab cU cV bb s1 = Step.next s →
      loop_state_after P lab cU cV bb bytes (k + 1) s0 = some s := by
  intro k
  induction k with
  | zero =>
    intro s0 s1 s h hlt hb
    simp only [loop_state_after, Option.some.injEq] at h
    subst h
    simp only [loop_state_after, hlt, if_true, hb]
  | succ n ih =>
    intro s0 s1 s h hlt hb
    by_cases hlt0 : s0.resultKey.size < bytes
    · cases hb0 : loop_body P lab cU cV bb s0 with
      | next s2 =>
        have h2 : loop_state_after P lab cU cV bb bytes n s2 = some s1 := by
          simpa only [loop_state_after, hlt0, if_true, hb0] using h
        have h3 := ih s2 s1 s h2 hlt hb
        rw [loop_state_after]
        simp only [hlt0, if_true, hb0]
        exact h3
      | err r s2 => simp [loop_state_after, hlt0, hb0] at h
    · simp [loop_state_after, hlt0] at h

/-! ## Runs in which every HMAC call succeeds -/

theorem EVP_MD.size_pos (md : EVP_MD) : 0 < md.size := by
  cases md <;> simp [EVP_MD.size]

/-- With every HMAC call succeeding, an iteration appends its block, or fails
with `TSS2_SYS_RC_BAD_VALUE` when the block does not fit. -/
theorem loop_body_all_ok (P : Host) (hok : P.all_ok) (hP : P.digest_sized)
    (lab cU cV bb : List Nat) (key : List Nat) (md : EVP_MD) (s : LoopState)
    (hi : last_init s.log = some (key, md)) :
    (s.resultKey.size + md.size ≤ P.capacity →
      ∃ s1, loop_body P lab cU cV bb s = Step.next s1
        ∧ last_init s1.log = some (key, md)
        ∧ s1.resultKey.size = s.resultKey.size + md.size)
    ∧ (P.capacity < s.resultKey.size + md.size →
      ∃ s1, loop_body P lab cU cV bb s = Step.err TSS2_RC.TSS2_SYS_RC_BAD_VALUE s1
        ∧ s1.resultKey = s.resultKey) := by
  have hlen : (P.hmacOut (s.log ++ iteration_updates P lab cU cV bb s.i
      ++ [HmacCall.HMAC_Final])).length = md.size :=
    hP _ key md (by rw [last_init_iteration]; exact hi)
  rcases loop_body_cases P lab cU cV bb s with ⟨pre, d, _, hf, _⟩ | ⟨hf, _⟩ | ⟨_, hc, hb⟩
    | ⟨_, hc, hb⟩
  · rw [hok _] at hf; cases hf
  · rw [hok _] at hf; cases hf
  · rw [hlen] at hc
    refine ⟨fun h => by omega, fun _ => ⟨_, hb, rfl⟩⟩
  · rw [hlen] at hc
    refine ⟨fun _ => ⟨_, hb, ?_, ?_⟩, fun h => by omega⟩
    · simp only [last_init_iteration]; exact hi
    · simp only [hlen]

/-- With every HMAC call succeeding, the loop runs `k` iterations as long as
the test holds before each and the `k` blocks fit. -/
theorem loop_state_after_all_ok (P : Host) (hok : P.all_ok) (hP : P.digest_sized)
    (lab cU cV bb : List Nat) (bytes : Nat) (key : List Nat) (md : EVP_MD) (s0 : LoopState)
    (hi : last_init s0.log = some (key, md)) :
    ∀ k : Nat, (∀ j, j < k → s0.resultKey.size + j * md.size < bytes) →
      s0.resultKey.size + k * md.size ≤ P.capacity →
      ∃ s, loop_state_after P lab cU cV bb bytes k s0 = some s
        ∧ last_init s.log = some (key, md)
        ∧ s.resultKey.size = s0.resultKey.size + k * md.size := by
  intro k
  induction k with
  | zero =>
    intro _ _
    exact ⟨s0, rfl, hi, by simp⟩
  | succ n ih =>
    intro htest hcap
    have hcap1 : s0.resultKey.size + n * md.size ≤ P.capacity := by
      rw [Nat.add_mul] at hcap; omega
    obtain ⟨s1, h1, h2, h3⟩ := ih (fun j hj => htest j (by omega)) hcap1
    have hlt : s1.resultKey.size < bytes := by
      rw [h3]; exact htest n (by omega)
    obtain ⟨s, hb, h4, h5⟩ := (loop_body_all_ok P hok hP lab cU cV bb key md s1 h2).1
      (by rw [h3]; rw [Nat.add_mul] at hcap; omega)
    refine ⟨s, loop_state_after_step P lab cU cV bb bytes n s0 s1 s h1 hlt hb, h4, ?_⟩
    rw [h5, h3, Nat.add_mul]
    omega

theorem blocks_needed_spec (bytes : Nat) (md : EVP_MD) :
    bytes ≤ blocks_needed bytes md.size * md.size
      ∧ (∀ j, j < blocks_needed bytes md.size → j * md.size < bytes)
      ∧ (1 ≤ bytes → bytes ≤ md.size → blocks_needed bytes md.size = 1)
      ∧ (bytes = 0 → blocks_needed bytes md.size = 0) := by
  unfold blocks_needed
  cases md <;> simp only [EVP_MD.size] <;> refine ⟨?_, ?_, ?_, ?_⟩ <;> intros <;> omega

/-- The whole call when every HMAC call succeeds: success after
`blocks_needed` iterations if that many blocks fit the output buffer,
`TSS2_SYS_RC_BAD_VALUE` at the first block that does not fit otherwise. -/
theorem tpm_kdfa_all_ok (P : Host) (hok : P.all_ok) (hP : P.digest_sized)
    (fuel hashAlg : Nat) (md : EVP_MD) (key label cU cV : List Nat) (bits : Nat) (rk0 : TPM2B)
    (hlabel : label_size label ≤ TPM2B_DIGEST_BUFFER)
    (hmd : tpm_algorithm_to_openssl_digest hashAlg = some md)
    (hfuel : blocks_needed (bits / 8) md.size ≤ fuel) :
    (blocks_needed (bits / 8) md.size * md.size ≤ P.capacity →
      ∃ s, loop_state_after P (label_copy label) cU cV (swizzled_bytes P bits) (bits / 8)
            (blocks_needed (bits / 8) md.size) (loop_entry key md rk0) = some s
        ∧ s.resultKey.size = blocks_needed (bits / 8) md.size * md.size
        ∧ tpm_kdfa P fuel hashAlg key label cU cV bits rk0
          = Outcome.returned TSS2_RC.TPM2_RC_SUCCESS
              { size := bits / 8, buffer := s.resultKey.buffer }
              (s.log ++ [HmacCall.HMAC_CTX_free]))
    ∧ (P.capacity < blocks_needed (bits / 8) md.size * md.size →
      ∃ s s1, loop_state_after P (label_copy label) cU cV (swizzled_bytes P bits) (bits / 8)
            (P.capacity / md.size) (loop_entry key md rk0) = some s
        ∧ s.resultKey.size = P.capacity / md.size * md.size
        ∧ loop_body P (label_copy label) cU cV (swizzled_bytes P bits) s
          = Step.err TSS2_RC.TSS2_SYS_RC_BAD_VALUE s1
        ∧ tpm_kdfa P fuel hashAlg key label cU cV bits rk0
          = Outcome.returned TSS2_RC.TSS2_SYS_RC_BAD_VALUE s.resultKey
              (s1.log ++ [HmacCall.HMAC_CTX_free])) := by
  have hloop := tpm_kdfa_in_loop P fuel hashAlg md key label cU cV bits rk0 hlabel hmd
    (hok _) (hok _)
  obtain ⟨hn1, hn2, _, _⟩ := blocks_needed_spec (bits / 8) md
  have hL := EVP_MD.size_pos md
  have hentry : last_init (loop_entry key md rk0).log = some (key, md) := rfl
  have hsz0 : (loop_entry key md rk0).resultKey.size = 0 := rfl
  constructor
  · intro hfit
    obtain ⟨s, hs, _, hsz⟩ := loop_state_after_all_ok P hok hP (label_copy label) cU cV
      (swizzled_bytes P bits) (bits / 8) key md (loop_entry key md rk0) hentry
      (blocks_needed (bits / 8) md.size)
      (fun j hj => by rw [hsz0, Nat.zero_add]; exact hn2 j hj)
      (by rw [hsz0, Nat.zero_add]; exact hfit)
    rw [hsz0, Nat.zero_add] at hsz
    refine ⟨s, hs, hsz, ?_⟩
    obtain ⟨f, rfl⟩ : ∃ f, fuel = blocks_needed (bits / 8) md.size + f :=
      ⟨fuel - blocks_needed (bits / 8) md.size, by omega⟩
    rw [hloop, kdfa_while_after _ _ _ _ _ _ _ f _ s hs,
      kdfa_while_done _ _ _ _ _ _ _ _ (by rw [hsz]; omega)]
  · intro hover
    have hk : P.capacity / md.size < blocks_needed (bits / 8) md.size := by
      rw [Nat.div_lt_iff_lt_mul hL]
      exact hover
    have hkc : P.capacity / md.size * md.size ≤ P.capacity := Nat.div_mul_le_self _ _
    obtain ⟨s, hs, hli, hsz⟩ := loop_state_after_all_ok P hok hP (label_copy label) cU cV
      (swizzled_bytes P bits) (bits / 8) key md (loop_entry key md rk0) hentry
      (P.capacity / md.size)
      (fun j hj => by rw [hsz0, Nat.zero_add]; exact hn2 j (by omega))
      (by rw [hsz0, Nat.zero_add]; exact hkc)
    rw [hsz0, Nat.zero_add] at hsz
    have hlt : s.resultKey.size < bits / 8 := by
      rw [hsz]; exact hn2 _ hk
    have hov : P.capacity < s.resultKey.size + md.size := by
      rw [hsz]
      have := Nat.lt_succ_iff.mp (Nat.lt_succ_of_le (Nat.le_refl (P.capacity / md.size)))
      have h2 : P.capacity < (P.capacity / md.size + 1) * md.size := by
        rw [← Nat.div_lt_iff_lt_mul hL]
        omega
      rw [Nat.add_mul, Nat.one_mul] at h2
      exact h2
    obtain ⟨s1, hb, hrk⟩ := (loop_body_all_ok P hok hP (label_copy label) cU cV
      (swizzled_bytes P bits) key md s hli).2 hov
    refine ⟨s, s1, hs, hsz, hb, ?_⟩
    obtain ⟨f, rfl⟩ : ∃ f, fuel = P.capacity / md.size + (f + 1) :=
      ⟨fuel - P.capacity / md.size - 1, by omega⟩
    rw [hloop, kdfa_while_after _ _ _ _ _ _ _ (f + 1) _ s hs]
    simp only [kdfa_while, hlt, if_true, hb, hrk]

/-! ## C11: contexts longer than a digest buffer -/

/-- The calls made by `k` complete iterations: the counter does not change, so
every iteration makes the same six calls. -/
theorem loop_state_after_log (P : Host) (lab cU cV bb : List Nat) (bytes : Nat) :
    ∀ (k : Nat) (s0 s : LoopState),
      loop_state_after P lab cU cV bb bytes k s0 = some s →
      s.i = s0.i
        ∧ s.log = s0.log ++ (List.replicate k
            (iteration_updates P lab cU cV bb s0.i ++ [HmacCall.HMAC_Final])).flatten := by
  intro k
  induction k with
  | zero =>
    intro s0 s h
    simp only [loop_state_after, Option.some.injEq] at h
    subst h
    simp
  | succ n ih =>
    intro s0 s h
    obtain ⟨s1, h1, _, hb⟩ := loop_state_after_succ P lab cU cV bb bytes n s0 s h
    obtain ⟨hi1, hl1⟩ := ih s0 s1 h1
    obtain ⟨hi, hl, _⟩ := loop_body_next_state P lab cU cV bb s1 s hb
    refine ⟨hi.trans hi1, ?_⟩
    rw [hl, hl1, hi1, List.replicate_succ', List.flatten_append]
    simp

/-- Counterexample to C11: a `contextU` of 65 bytes is not rejected; the
context is allocated, the 65 bytes are passed to `HMAC_Update` and the call
returns success. -/
theorem kdfa_oversized_context_accepted :
    (tpm_kdfa (ideal_host false 1024 toy_mac) 1 TPM2_ALG_SHA256 [] [] (List.replicate 65 7) []
        256 { size := 0, buffer := [] }).rval = some TSS2_RC.TPM2_RC_SUCCESS
    ∧ (tpm_kdfa (ideal_host false 1024 toy_mac) 1 TPM2_ALG_SHA256 [] [] (List.replicate 65 7) []
        256 { size := 0, buffer := [] }).calls
      = [HmacCall.HMAC_CTX_new, HmacCall.HMAC_Init_ex [] EVP_MD.sha256,
          HmacCall.HMAC_Update [0, 0, 0, 1], HmacCall.HMAC_Update [0],
          HmacCall.HMAC_Update (List.replicate 65 7), HmacCall.HMAC_Update [],
          HmacCall.HMAC_Update [0, 0, 1, 0], HmacCall.HMAC_Final,
          HmacCall.HMAC_CTX_free] := by
  decide

/-- C11 (amended). The contexts are not checked for length: whatever the lengths
of `contextU` and `contextV`, with a supported digest, a label that fits,
every HMAC call succeeding and the needed blocks fitting the output buffer,
`tpm_kdfa` allocates and initialises the context, passes the whole of
`contextU` and of `contextV` to `HMAC_Update` in every iteration, and returns
success. -/
theorem kdfa_contexts_fed_whole (P : Host) (hok : P.all_ok) (hP : P.digest_sized)
    (fuel hashAlg : Nat) (md : EVP_MD) (key label cU cV : List Nat) (bits : Nat) (rk0 : TPM2B)
    (hlabel : label_size label ≤ TPM2B_DIGEST_BUFFER)
    (hmd : tpm_algorithm_to_openssl_digest hashAlg = some md)
    (hfuel : blocks_needed (bits / 8) md.size ≤ fuel)
    (hfit : blocks_needed (bits / 8) md.size * md.size ≤ P.capacity) :
    (tpm_kdfa P fuel hashAlg key label cU cV bits rk0).rval = some TSS2_RC.TPM2_RC_SUCCESS
    ∧ (tpm_kdfa P fuel hashAlg key label cU cV bits rk0).calls
      = [HmacCall.HMAC_CTX_new, HmacCall.HMAC_Init_ex key md]
        ++ (List.replicate (blocks_needed (bits / 8) md.size)
            [HmacCall.HMAC_Update (BE32 1), HmacCall.HMAC_Update (label_copy label),
              HmacCall.HMAC_Update cU, HmacCall.HMAC_Update cV,
              HmacCall.HMAC_Update (BE32 bits), HmacCall.HMAC_Final]).flatten
        ++ [HmacCall.HMAC_CTX_free] := by
  obtain ⟨s, hs, _, he⟩ := (tpm_kdfa_all_ok P hok hP fuel hashAlg md key label cU cV bits rk0
    hlabel hmd hfuel).1 hfit
  obtain ⟨_, hl⟩ := loop_state_after_log _ _ _ _ _ _ _ _ _ hs
  rw [he]
  refine ⟨rfl, ?_⟩
  simp only [Outcome.calls, hl, loop_entry, iteration_updates, swizzled_bytes_eq,
    List.cons_append, List.nil_append]

/-- Witness of C11 (amended): a `contextU` of 65 bytes and a `contextV` of 70
bytes with SHA-1 and 320 bits, two iterations. -/
theorem kdfa_contexts_fed_whole_witness :
    (tpm_kdfa (ideal_host false 1024 toy_mac) 2 TPM2_ALG_SHA1 [] [] (List.replicate 65 7)
        (List.replicate 70 9) 320 { size := 0, buffer := [] }).rval
      = some TSS2_RC.TPM2_RC_SUCCESS
    ∧ (tpm_kdfa (ideal_host false 1024 toy_mac) 2 TPM2_ALG_SHA1 [] [] (List.replicate 65 7)
        (List.replicate 70 9) 320 { size := 0, buffer := [] }).calls
      = [HmacCall.HMAC_CTX_new, HmacCall.HMAC_Init_ex [] EVP_MD.sha1]
        ++ (List.replicate (blocks_needed (320 / 8) EVP_MD.sha1.size)
            [HmacCall.HMAC_Update (BE32 1), HmacCall.HMAC_Update (label_copy []),
              HmacCall.HMAC_Update (List.replicate 65 7),
              HmacCall.HMAC_Update (List.replicate 70 9),
              HmacCall.HMAC_Update (BE32 320), HmacCall.HMAC_Final]).flatten
        ++ [HmacCall.HMAC_CTX_free] :=
  kdfa_contexts_fed_whole (ideal_host false 1024 toy_mac) (ideal_host_all_ok _ _ _)
    (ideal_host_digest_sized _ _ _ toy_mac_length) 2 TPM2_ALG_SHA1 EVP_MD.sha1 [] []
    (List.replicate 65 7) (List.replicate 70 9) 320 { size := 0, buffer := [] }
    (by decide) (by decide) (by decide) (by decide)

/-! ## C12: the prior contents of the output buffer -/

/-- The loop body on a state whose buffer is replaced: the same branch, the
same calls, the same size, and the block written at the same place. -/
theorem loop_body_buffer (P : Host) (lab cU cV bb : List Nat) (s : LoopState)
    (b : List Nat) :
    loop_body P lab cU cV bb
        { s with resultKey := { size := s.resultKey.size, buffer := b } }
      = match loop_body P lab cU cV bb s with
        | Step.next s1 =>
          Step.next { s1 with resultKey :=
            { size := s1.resultKey.size
              buffer := b.take s.resultKey.size ++ P.hmacOut s1.log
                ++ b.drop s1.resultKey.size } }
        | Step.err r s1 =>
          Step.err r { s1 with resultKey := { size := s.resultKey.size, buffer := b } } := by
  simp only [loop_body]
  rcases hmac_update_list P [swizzled_bytes P s.i, lab, cU, cV, bb] s.log with ⟨ok, log⟩
  cases ok with
  | false => rfl
  | true =>
    simp only []
    by_cases hk : P.hmacOk (log ++ [HmacCall.HMAC_Final]) = true
    · simp only [hk, Bool.not_true, Bool.false_eq_true, if_false, tpm2_util_concat_buffer]
      by_cases hc : s.resultKey.size + (P.hmacOut (log ++ [HmacCall.HMAC_Final])).length
          > P.capacity
      · simp only [hc, if_true]
      · simp only [hc, if_false]
    · have hk2 : P.hmacOk (log ++ [HmacCall.HMAC_Final]) = false := by simpa using hk
      simp only [hk2, Bool.not_false, if_true]

theorem take_block (b out : List Nat) (n : Nat) (rest : List Nat) (hn : n ≤ b.length) :
    (b.take n ++ out ++ rest).take (n + out.length) = b.take n ++ out := by
  rw [List.take_append_of_le_length (by simp [List.length_take, Nat.min_eq_left hn])]
  rw [List.take_of_length_le (by simp [List.length_take, Nat.min_eq_left hn])]

/-- A completed iteration appends its block to the bytes of the output. -/
theorem loop_body_next_bytes (P : Host) (lab cU cV bb : List Nat) (s s1 : LoopState)
    (hs : s.resultKey.size ≤ s.resultKey.buffer.length)
    (h : loop_body P lab cU cV bb s = Step.next s1) :
    s1.resultKey.bytes = s.resultKey.bytes ++ P.hmacOut s1.log
      ∧ s1.resultKey.size ≤ s1.resultKey.buffer.length := by
  obtain ⟨_, _, _, hsz, _, hbuf⟩ := loop_body_next_state P lab cU cV bb s s1 h
  constructor
  · unfold TPM2B.bytes
    rw [hbuf, hsz, take_block _ _ _ _ hs]
  · rw [hbuf]
    simp only [List.length_append, List.length_take, List.length_drop, Nat.min_eq_left hs]
    omega

/-- The loop body keeps two agreeing states in agreement. -/
theorem loop_body_agrees (P : Host) (lab cU cV bb : List Nat) (s t : LoopState)
    (h : s.agrees t) :
    (∀ s1, loop_body P lab cU cV bb s = Step.next s1 →
      ∃ t1, loop_body P lab cU cV bb t = Step.next t1 ∧ s1.agrees t1)
    ∧ (∀ r s1, loop_body P lab cU cV bb s = Step.err r s1 →
      ∃ t1, loop_body P lab cU cV bb t = Step.err r t1 ∧ s1.agrees t1) := by
  obtain ⟨hi, hl, hsz, hby, hs, ht⟩ := h
  have et : t = { s with resultKey := { size := s.resultKey.size, buffer := t.resultKey.buffer } } := by
    cases s with
    | mk srk si sl =>
      cases t with
      | mk trk ti tl =>
        cases trk with
        | mk tsz tbuf =>
          simp only at hi hl hsz
          subst hi hl hsz
          rfl
  have hb := loop_body_buffer P lab cU cV bb s t.resultKey.buffer
  rw [← et] at hb
  constructor
  · intro s1 h1
    rw [h1] at hb
    refine ⟨_, hb, ?_⟩
    have hst := loop_body_next_state P lab cU cV bb s s1 h1
    obtain ⟨hby1, hlen1⟩ := loop_body_next_bytes P lab cU cV bb s s1 hs h1
    have hsz1 := hst.2.2.2.1
    refine ⟨rfl, rfl, rfl, ?_, hlen1, ?_⟩
    · rw [hby1]
      simp only [TPM2B.bytes]
      rw [hsz1, take_block _ _ _ _ (by rw [hsz]; exact ht)]
      simp only [TPM2B.bytes] at hby
      rw [hby, hsz]
    · simp only [List.length_append, List.length_take, List.length_drop]
      rw [hsz1]
      have : min s.resultKey.size t.resultKey.buffer.length = s.resultKey.size :=
        Nat.min_eq_left (by rw [hsz]; exact ht)
      omega
  · intro r s1 h1
    rw [h1] at hb
    refine ⟨_, hb, ?_⟩
    obtain ⟨hrk, _, _⟩ := loop_body_err_state P lab cU cV bb s r s1 h1
    refine ⟨rfl, rfl, ?_, ?_, ?_, ?_⟩
    · rw [hrk]
    · rw [hrk]
      simp only [TPM2B.bytes] at hby ⊢
      rw [hby, hsz]
    · rw [hrk]; exact hs
    · simp only []
      rw [hsz]; exact ht

/-- The loop keeps two agreeing states in agreement, with the same exit. -/
theorem kdfa_while_agrees (P : Host) (lab cU cV bb : List Nat) (bytes : Nat) :
    ∀ (fuel : Nat) (s t : LoopState), s.agrees t →
      (kdfa_while P lab cU cV bb bytes fuel s = none →
        kdfa_while P lab cU cV bb bytes fuel t = none)
      ∧ (∀ s1, kdfa_while P lab cU cV bb bytes fuel s = some (Step.next s1) →
        ∃ t1, kdfa_while P lab cU cV bb bytes fuel t = some (Step.next t1) ∧ s1.agrees t1)
      ∧ (∀ r s1, kdfa_while P lab cU cV bb bytes fuel s = some (Step.err r s1) →
        ∃ t1, kdfa_while P lab cU cV bb bytes fuel t = some (Step.err r t1)
          ∧ s1.agrees t1) := by
  intro fuel
  induction fuel with
  | zero =>
    intro s t h
    have hsz := h.2.2.1
    by_cases hlt : s.resultKey.size < bytes
    · have hlt2 : t.resultKey.size < bytes := by rw [← hsz]; exact hlt
      simp [kdfa_while, hlt, hlt2]
    · have hlt2 : ¬ t.resultKey.size < bytes := by rw [← hsz]; exact hlt
      simp only [kdfa_while, hlt, hlt2, if_false]
      refine ⟨fun h0 => (by cases h0), ?_, fun r s1 h0 => (by cases h0)⟩
      intro s1 h0
      simp only [Option.some.injEq, Step.next.injEq] at h0
      subst h0
      exact ⟨t, rfl, h⟩
  | succ n ih =>
    intro s t h
    have hsz := h.2.2.1
    by_cases hlt : s.resultKey.size < bytes
    · have hlt2 : t.resultKey.size < bytes := by rw [← hsz]; exact hlt
      obtain ⟨hn, he⟩ := loop_body_agrees P lab cU cV bb s t h
      cases hb : loop_body P lab cU cV bb s with
      | next s2 =>
        obtain ⟨t2, hbt, hag⟩ := hn s2 hb
        simp only [kdfa_while, hlt, hlt2, if_true, hb, hbt]
        exact ih s2 t2 hag
      | err r2 s2 =>
        obtain ⟨t2, hbt, hag⟩ := he r2 s2 hb
        simp only [kdfa_while, hlt, hlt2, if_true, hb, hbt]
        refine ⟨fun h0 => (by cases h0), fun s1 h0 => (by cases h0), ?_⟩
        intro r s1 h0
        simp only [Option.some.injEq, Step.err.injEq] at h0
        obtain ⟨h1, h2⟩ := h0
        subst h1 h2
        exact ⟨t2, rfl, hag⟩
    · have hlt2 : ¬ t.resultKey.size < bytes := by rw [← hsz]; exact hlt
      simp only [kdfa_while, hlt, hlt2, if_false]
      refine ⟨fun h0 => (by cases h0), ?_, fun r s1 h0 => (by cases h0)⟩
      intro s1 h0
      simp only [Option.some.injEq, Step.next.injEq] at h0
      subst h0
      exact ⟨t, rfl, h⟩

theorem loop_entry_agrees (key : List Nat) (md : EVP_MD) (a b : TPM2B) :
    (loop_entry key md a).agrees (loop_entry key md b) := by
  simp [LoopState.agrees, loop_entry, TPM2B.bytes]

/-- C12. Determinism: `tpm_kdfa` is a function of its inputs and of the HMAC
library, and its result does not depend on the output buffer passed in: for
any two initial output buffers `a` and `b` (any contents, any size field) the
two runs return the same code, the same output size and the same output
bytes, after the same HMAC calls; and one returns exactly when the other
does. -/
theorem kdfa_deterministic (P : Host) (fuel hashAlg : Nat)
    (key label cU cV : List Nat) (bits : Nat) (a b : TPM2B) :
    (tpm_kdfa P fuel hashAlg key label cU cV bits a).rval
        = (tpm_kdfa P fuel hashAlg key label cU cV bits b).rval
    ∧ (tpm_kdfa P fuel hashAlg key label cU cV bits a).size
        = (tpm_kdfa P fuel hashAlg key label cU cV bits b).size
    ∧ (tpm_kdfa P fuel hashAlg key label cU cV bits a).output
        = (tpm_kdfa P fuel hashAlg key label cU cV bits b).output
    ∧ (tpm_kdfa P fuel hashAlg key label cU cV bits a).calls
        = (tpm_kdfa P fuel hashAlg key label cU cV bits b).calls
    ∧ (tpm_kdfa P fuel hashAlg key label cU cV bits a = Outcome.out_of_fuel
        ↔ tpm_kdfa P fuel hashAlg key label cU cV bits b = Outcome.out_of_fuel)
    ∧ (tpm_kdfa P fuel hashAlg key label cU cV bits a = Outcome.label_overflow
        ↔ tpm_kdfa P fuel hashAlg key label cU cV bits b = Outcome.label_overflow) := by
  by_cases hl : label_size label > TPM2B_DIGEST_BUFFER
  · simp [tpm_kdfa, hl]
  · cases hmd : tpm_algorithm_to_openssl_digest hashAlg with
    | none => simp [tpm_kdfa, hl, hmd, Outcome.rval, Outcome.size, Outcome.output,
        Outcome.calls, TPM2B.bytes]
    | some md =>
      cases ha : P.hmacOk [HmacCall.HMAC_CTX_new] with
      | false => simp [tpm_kdfa, hl, hmd, ha, Outcome.rval, Outcome.size, Outcome.output,
          Outcome.calls, TPM2B.bytes]
      | true =>
        cases hi : P.hmacOk [HmacCall.HMAC_CTX_new, HmacCall.HMAC_Init_ex key md] with
        | false => simp [tpm_kdfa, hl, hmd, ha, hi, Outcome.rval, Outcome.size,
            Outcome.output, Outcome.calls, TPM2B.bytes]
        | true =>
          have hl2 : label_size label ≤ TPM2B_DIGEST_BUFFER := by omega
          rw [tpm_kdfa_in_loop P fuel hashAlg md key label cU cV bits a hl2 hmd ha hi,
            tpm_kdfa_in_loop P fuel hashAlg md key label cU cV bits b hl2 hmd ha hi]
          obtain ⟨h0, h1, h2⟩ := kdfa_while_agrees P (label_copy label) cU cV
            (swizzled_bytes P bits) (bits / 8) fuel _ _ (loop_entry_agrees key md a b)
          cases hw : kdfa_while P (label_copy label) cU cV (swizzled_bytes P bits) (bits / 8)
              fuel (loop_entry key md a) with
          | none =>
            rw [h0 hw]
            simp
          | some st =>
            cases st with
            | next s1 =>
              obtain ⟨t1, ht, hag⟩ := h1 s1 hw
              obtain ⟨_, hlog, hsz, hby, _, _⟩ := hag
              have hge : ¬ s1.resultKey.size < bits / 8 :=
                ((kdfa_while_next _ _ _ _ _ _ _ _ _ hw).choose_spec).2.2
              rw [ht]
              simp only [Outcome.rval, Outcome.size, Outcome.output, Outcome.calls, hlog,
                TPM2B.bytes, true_and, Option.some.injEq, Prod.mk.injEq, reduceCtorEq]
              simp only [TPM2B.bytes] at hby
              have e1 : List.take (bits / 8) s1.resultKey.buffer
                  = List.take (bits / 8) (List.take s1.resultKey.size s1.resultKey.buffer) := by
                rw [List.take_take, Nat.min_eq_left (by omega)]
              have e2 : List.take (bits / 8) t1.resultKey.buffer
                  = List.take (bits / 8) (List.take t1.resultKey.size t1.resultKey.buffer) := by
                rw [List.take_take, Nat.min_eq_left (by omega)]
              rw [e1, e2, hby]
              exact ⟨rfl, trivial⟩
            | err r s1 =>
              obtain ⟨t1, ht, hag⟩ := h2 r s1 hw
              obtain ⟨_, hlog, hsz, hby, _, _⟩ := hag
              rw [ht]
              simp only [Outcome.rval, Outcome.size, Outcome.output, Outcome.calls, hlog, hsz,
                hby, true_and, reduceCtorEq]

/-! ## C13: number of iterations and truncation -/

theorem loop_state_after_finals (P : Host) (lab cU cV bb : List Nat) (bytes : Nat) :
    ∀ (k : Nat) (s0 s : LoopState),
      loop_state_after P lab cU cV bb bytes k s0 = some s →
      s.log.count HmacCall.HMAC_Final = s0.log.count HmacCall.HMAC_Final + k := by
  intro k
  induction k with
  | zero =>
    intro s0 s h
    simp only [loop_state_after, Option.some.injEq] at h
    subst h
    rfl
  | succ n ih =>
    intro s0 s h
    obtain ⟨s1, h1, _, hb⟩ := loop_state_after_succ P lab cU cV bb bytes n s0 s h
    rw [(loop_body_next_state P lab cU cV bb s1 s hb).2.1, List.count_append,
      List.count_append, ih s0 s1 h1]
    simp [iteration_updates]
    omega

theorem blocks_needed_unique (bytes k : Nat) (md : EVP_MD) (h1 : bytes ≤ k * md.size)
    (h2 : k = 0 ∨ (k - 1) * md.size < bytes) : k = blocks_needed bytes md.size := by
  unfold blocks_needed
  cases md <;> simp only [EVP_MD.size] at h1 h2 ⊢ <;> omega

/-- A successful call ran exactly `blocks_needed` iterations. -/
theorem tpm_kdfa_success_iterations {P : Host} (hP : P.digest_sized) {fuel hashAlg : Nat}
    {md : EVP_MD} {key label cU cV : List Nat} {bits : Nat} {rk0 rk : TPM2B}
    {log : List HmacCall} (hmd : tpm_algorithm_to_openssl_digest hashAlg = some md)
    (h : tpm_kdfa P fuel hashAlg key label cU cV bits rk0
      = Outcome.returned TSS2_RC.TPM2_RC_SUCCESS rk log) :
    ∃ s, loop_state_after P (label_copy label) cU cV (swizzled_bytes P bits) (bits / 8)
          (blocks_needed (bits / 8) md.size) (loop_entry key md rk0) = some s
      ∧ s.resultKey.size = blocks_needed (bits / 8) md.size * md.size
      ∧ rk = { size := bits / 8, buffer := s.resultKey.buffer }
      ∧ log = s.log ++ [HmacCall.HMAC_CTX_free] := by
  obtain ⟨md1, s, hmd1, hw, hrk, hlog⟩ := tpm_kdfa_success h
  rw [hmd] at hmd1
  cases hmd1
  obtain ⟨k, _, hs, hge⟩ := kdfa_while_next _ _ _ _ _ _ _ _ _ hw
  obtain ⟨_, hsz⟩ := loop_state_after_size P hP _ _ _ _ _ key md k (loop_entry key md rk0) s
    rfl hs
  have hsz0 : (loop_entry key md rk0).resultKey.size = 0 := rfl
  rw [hsz0, Nat.zero_add] at hsz
  have hk : k = blocks_needed (bits / 8) md.size := by
    apply blocks_needed_unique
    · rw [← hsz]; omega
    · cases k with
      | zero => left; rfl
      | succ n =>
        right
        obtain ⟨s1, h1, hlt, _⟩ := loop_state_after_succ _ _ _ _ _ _ _ _ _ hs
        obtain ⟨_, hsz1⟩ := loop_state_after_size P hP _ _ _ _ _ key md n
          (loop_entry key md rk0) s1 rfl h1
        rw [hsz0, Nat.zero_add] at hsz1
        rw [Nat.add_sub_cancel, ← hsz1]
        exact hlt
  subst hk
  exact ⟨s, hs, hsz, hrk, hlog⟩

/-- C13. Iteration count and truncation: a successful derivation with a digest
of `L` bytes makes exactly `ceil((bits / 8) / L)` calls of `HMAC_Final`,
exactly one when `1 ≤ bits / 8 ≤ L`; the truncation discards fewer than `L`
bytes of the accumulated output, all of them from the last block (the blocks
before the last are shorter together than `bits / 8`); and when the
accumulated length equals `bits / 8` the output buffer is returned as the
loop left it. -/
theorem kdfa_iteration_count (P : Host) (hP : P.digest_sized) (fuel hashAlg : Nat)
    (md : EVP_MD) (key label cU cV : List Nat) (bits : Nat) (rk0 : TPM2B)
    (hmd : tpm_algorithm_to_openssl_digest hashAlg = some md)
    (h : (tpm_kdfa P fuel hashAlg key label cU cV bits rk0).rval
      = some TSS2_RC.TPM2_RC_SUCCESS) :
    (tpm_kdfa P fuel hashAlg key label cU cV bits rk0).calls.count HmacCall.HMAC_Final
        = blocks_needed (bits / 8) md.size
    ∧ (1 ≤ bits / 8 → bits / 8 ≤ md.size →
        (tpm_kdfa P fuel hashAlg key label cU cV bits rk0).calls.count HmacCall.HMAC_Final
          = 1)
    ∧ ∃ s, loop_state_after P (label_copy label) cU cV (swizzled_bytes P bits) (bits / 8)
          (blocks_needed (bits / 8) md.size) (loop_entry key md rk0) = some s
      ∧ s.resultKey.size = blocks_needed (bits / 8) md.size * md.size
      ∧ bits / 8 ≤ s.resultKey.size
      ∧ s.resultKey.size - bits / 8 < md.size
      ∧ (blocks_needed (bits / 8) md.size - 1) * md.size ≤ bits / 8
      ∧ (tpm_kdfa P fuel hashAlg key label cU cV bits rk0).size = some (bits / 8)
      ∧ (s.resultKey.size = bits / 8 →
          tpm_kdfa P fuel hashAlg key label cU cV bits rk0
            = Outcome.returned TSS2_RC.TPM2_RC_SUCCESS s.resultKey
                (s.log ++ [HmacCall.HMAC_CTX_free])) := by
  obtain ⟨rk, log, he⟩ := Outcome.rval_eq_some h
  obtain ⟨s, hs, hsz, hrk, hlog⟩ := tpm_kdfa_success_iterations hP hmd he
  have hcount : log.count HmacCall.HMAC_Final = blocks_needed (bits / 8) md.size := by
    rw [hlog, List.count_append, loop_state_after_finals _ _ _ _ _ _ _ _ _ hs]
    simp [loop_entry]
  obtain ⟨hn1, hn2, hn3, _⟩ := blocks_needed_spec (bits / 8) md
  have hL := EVP_MD.size_pos md
  rw [he]
  simp only [Outcome.calls, Outcome.size]
  refine ⟨hcount, fun h1 h2 => by rw [hcount]; exact hn3 h1 h2, s, hs, hsz,
    by rw [hsz]; exact hn1, ?_, ?_, by rw [hrk], ?_⟩
  · rw [hsz]
    cases hb : blocks_needed (bits / 8) md.size with
    | zero => simp; exact hL
    | succ n =>
      have := hn2 n (by omega)
      rw [Nat.add_mul]
      omega
  · cases hb : blocks_needed (bits / 8) md.size with
    | zero => simp
    | succ n =>
      have := hn2 n (by omega)
      rw [Nat.add_sub_cancel]
      omega
  · intro heq
    rw [hrk, hlog, ← heq]

/-- Witness of C13: 512 bits with SHA-1 take four iterations. -/
theorem kdfa_iteration_count_witness :
    (tpm_kdfa (ideal_host false 1024 toy_mac) 4 TPM2_ALG_SHA1 [] [] [] [] 512
        { size := 0, buffer := [] }).calls.count HmacCall.HMAC_Final
      = blocks_needed (512 / 8) EVP_MD.sha1.size
    ∧ blocks_needed (512 / 8) EVP_MD.sha1.size = 4 :=
  ⟨(kdfa_iteration_count (ideal_host false 1024 toy_mac)
      (ideal_host_digest_sized _ _ _ toy_mac_length) 4 TPM2_ALG_SHA1 EVP_MD.sha1 [] [] [] []
      512 { size := 0, buffer := [] } (by decide) (by decide)).1, by decide⟩

/-! ## C14: the blocks in the output -/

theorem blocks_from_append (P : Host) :
    ∀ (l1 pre l2 : List HmacCall),
      blocks_from P pre (l1 ++ l2) = blocks_from P pre l1 ++ blocks_from P (pre ++ l1) l2 := by
  intro l1
  induction l1 with
  | nil => intro pre l2; simp [blocks_from]
  | cons c l1 ih =>
    intro pre l2
    cases c <;> simp [blocks_from, ih]

theorem blocks_written_iteration (P : Host) (lab cU cV bb : List Nat) (i : Nat)
    (log : List HmacCall) :
    blocks_written P (log ++ iteration_updates P lab cU cV bb i ++ [HmacCall.HMAC_Final])
      = blocks_written P log
        ++ [P.hmacOut (log ++ iteration_updates P lab cU cV bb i ++ [HmacCall.HMAC_Final])] := by
  unfold blocks_written
  rw [List.append_assoc, blocks_from_append]
  simp [iteration_updates, blocks_from]

theorem blocks_written_free (P : Host) (log : List HmacCall) :
    blocks_written P (log ++ [HmacCall.HMAC_CTX_free]) = blocks_written P log := by
  unfold blocks_written
  rw [blocks_from_append]
  simp [blocks_from]

/-- At the head of the loop the bytes of the output are the blocks finalised so
far, one after the other. -/
theorem loop_state_after_blocks (P : Host) (lab cU cV bb : List Nat) (bytes : Nat)
    (s0 : LoopState) (h0 : s0.resultKey.size ≤ s0.resultKey.buffer.length)
    (hb0 : s0.resultKey.bytes = (blocks_written P s0.log).flatten) :
    ∀ (k : Nat) (s : LoopState), loop_state_after P lab cU cV bb bytes k s0 = some s →
      s.resultKey.size ≤ s.resultKey.buffer.length
        ∧ s.resultKey.bytes = (blocks_written P s.log).flatten := by
  intro k s hs
  refine loop_state_after_rule P lab cU cV bb bytes
    (fun s => s.resultKey.size ≤ s.resultKey.buffer.length
      ∧ s.resultKey.bytes = (blocks_written P s.log).flatten) ?_ k s0 s ⟨h0, hb0⟩ hs
  intro s s1 hinv _ hb
  obtain ⟨hby, hlen⟩ := loop_body_next_bytes P lab cU cV bb s s1 hinv.1 hb
  refine ⟨hlen, ?_⟩
  rw [hby, hinv.2]
  have hlog := (loop_body_next_state P lab cU cV bb s s1 hb).2.1
  rw [hlog, blocks_written_iteration, List.flatten_append]
  simp

/-- C14. Blocks are concatenated in iteration order: the output of a successful
derivation is the first `bits / 8` bytes of `block_1 ‖ ... ‖ block_n`, the
blocks `HMAC_Final` wrote in the `n` iterations, in that order; every
completed iteration leaves the bytes accumulated so far as they are and
appends its block after them. -/
theorem kdfa_blocks_concatenated (P : Host) (fuel hashAlg : Nat)
    (key label cU cV : List Nat) (bits : Nat) (rk0 : TPM2B)
    (h : (tpm_kdfa P fuel hashAlg key label cU cV bits rk0).rval
      = some TSS2_RC.TPM2_RC_SUCCESS) :
    (tpm_kdfa P fuel hashAlg key label cU cV bits rk0).output
        = some (TSS2_RC.TPM2_RC_SUCCESS,
            (blocks_written P (tpm_kdfa P fuel hashAlg key label cU cV bits rk0).calls).flatten.take
              (bits / 8))
    ∧ (blocks_written P (tpm_kdfa P fuel hashAlg key label cU cV bits rk0).calls).length
        = (tpm_kdfa P fuel hashAlg key label cU cV bits rk0).calls.count HmacCall.HMAC_Final
    ∧ (∀ (md : EVP_MD) (k : Nat) (s s1 : LoopState),
        loop_state_after P (label_copy label) cU cV (swizzled_bytes P bits) (bits / 8) k
            (loop_entry key md rk0) = some s →
        loop_body P (label_copy label) cU cV (swizzled_bytes P bits) s = Step.next s1 →
        s1.resultKey.bytes = s.resultKey.bytes ++ P.hmacOut s1.log
          ∧ blocks_written P s1.log = blocks_written P s.log ++ [P.hmacOut s1.log]) := by
  have hentry : ∀ md, (loop_entry key md rk0).resultKey.size
        ≤ (loop_entry key md rk0).resultKey.buffer.length
      ∧ (loop_entry key md rk0).resultKey.bytes
        = (blocks_written P (loop_entry key md rk0).log).flatten := by
    intro md
    simp [loop_entry, TPM2B.bytes, blocks_written, blocks_from]
  obtain ⟨rk, log, he⟩ := Outcome.rval_eq_some h
  obtain ⟨md, s, _, hw, hrk, hlog⟩ := tpm_kdfa_success he
  obtain ⟨k, _, hs, hge⟩ := kdfa_while_next _ _ _ _ _ _ _ _ _ hw
  obtain ⟨hlen, hby⟩ := loop_state_after_blocks P _ _ _ _ _ _ (hentry md).1 (hentry md).2 k s hs
  rw [he]
  simp only [Outcome.output, Outcome.calls]
  refine ⟨?_, ?_, ?_⟩
  · rw [hlog, blocks_written_free, ← hby, hrk]
    simp only [TPM2B.bytes, List.take_take, Option.some.injEq, Prod.mk.injEq, true_and]
    rw [Nat.min_eq_left (by omega)]
  · rw [hlog, blocks_written_free, List.count_append]
    have hc := loop_state_after_finals _ _ _ _ _ _ _ _ _ hs
    have hbl : ∀ (j : Nat) (t : LoopState),
        loop_state_after P (label_copy label) cU cV (swizzled_bytes P bits) (bits / 8) j
            (loop_entry key md rk0) = some t →
        (blocks_written P t.log).length = t.log.count HmacCall.HMAC_Final := by
      intro j t ht
      refine loop_state_after_rule P _ _ _ _ _
        (fun t => (blocks_written P t.log).length = t.log.count HmacCall.HMAC_Final) ?_ j
        (loop_entry key md rk0) t (by simp [loop_entry, blocks_written, blocks_from]) ht
      intro t t1 hinv _ hb
      have hl := (loop_body_next_state _ _ _ _ _ _ _ hb).2.1
      simp only [hl, blocks_written_iteration, List.length_append, List.count_append, hinv]
      simp [iteration_updates]
    rw [hbl k s hs]
    simp
  · intro md1 j t t1 ht hb
    obtain ⟨hlen1, _⟩ := loop_state_after_blocks P _ _ _ _ _ _ (hentry md1).1 (hentry md1).2
      j t ht
    refine ⟨(loop_body_next_bytes _ _ _ _ _ _ _ hlen1 hb).1, ?_⟩
    have hl := (loop_body_next_state _ _ _ _ _ _ _ hb).2.1
    rw [hl, blocks_written_iteration]

/-- Witness of C14: 320 bits with SHA-1, the 40 bytes of two blocks. -/
theorem kdfa_blocks_concatenated_witness :
    (tpm_kdfa (ideal_host false 1024 toy_mac) 2 TPM2_ALG_SHA1 [] [] [] [] 320
        { size := 3, buffer := [1, 2, 3] }).output
      = some (TSS2_RC.TPM2_RC_SUCCESS,
          (blocks_written (ideal_host false 1024 toy_mac)
            (tpm_kdfa (ideal_host false 1024 toy_mac) 2 TPM2_ALG_SHA1 [] [] [] [] 320
              { size := 3, buffer := [1, 2, 3] }).calls).flatten.take (320 / 8))
    ∧ (blocks_written (ideal_host false 1024 toy_mac)
          (tpm_kdfa (ideal_host false 1024 toy_mac) 2 TPM2_ALG_SHA1 [] [] [] [] 320
            { size := 3, buffer := [1, 2, 3] }).calls).length = 2 :=
  ⟨(kdfa_blocks_concatenated (ideal_host false 1024 toy_mac) 2 TPM2_ALG_SHA1 [] [] [] [] 320
      { size := 3, buffer := [1, 2, 3] } (by decide)).1, by decide⟩

/-! ## C15: requests that fit the buffer and fail -/

/-- C15. A request can fit the output buffer and fail: with a supported digest of
`L` bytes, a label that fits, every HMAC call succeeding and capacity `C`,
`tpm_kdfa` returns success if and only if `ceil((bits / 8) / L) * L ≤ C`, and
returns `TSS2_SYS_RC_BAD_VALUE` otherwise, because whole blocks are appended
before the truncation. -/
theorem kdfa_success_iff_blocks_fit (P : Host) (hok : P.all_ok) (hP : P.digest_sized)
    (fuel hashAlg : Nat) (md : EVP_MD) (key label cU cV : List Nat) (bits : Nat) (rk0 : TPM2B)
    (hlabel : label_size label ≤ TPM2B_DIGEST_BUFFER)
    (hmd : tpm_algorithm_to_openssl_digest hashAlg = some md)
    (hfuel : blocks_needed (bits / 8) md.size ≤ fuel) :
    ((tpm_kdfa P fuel hashAlg key label cU cV bits rk0).rval = some TSS2_RC.TPM2_RC_SUCCESS
      ↔ blocks_needed (bits / 8) md.size * md.size ≤ P.capacity)
    ∧ (¬ blocks_needed (bits / 8) md.size * md.size ≤ P.capacity →
        (tpm_kdfa P fuel hashAlg key label cU cV bits rk0).rval
          = some TSS2_RC.TSS2_SYS_RC_BAD_VALUE) := by
  obtain ⟨h1, h2⟩ := tpm_kdfa_all_ok P hok hP fuel hashAlg md key label cU cV bits rk0
    hlabel hmd hfuel
  have hbad : ¬ blocks_needed (bits / 8) md.size * md.size ≤ P.capacity →
      (tpm_kdfa P fuel hashAlg key label cU cV bits rk0).rval
        = some TSS2_RC.TSS2_SYS_RC_BAD_VALUE := by
    intro hn
    obtain ⟨s, s1, _, _, _, he⟩ := h2 (by omega)
    rw [he]
    rfl
  refine ⟨⟨?_, ?_⟩, hbad⟩
  · intro hs
    by_contra hn
    rw [hbad hn] at hs
    cases hs
  · intro hfit
    obtain ⟨s, _, _, he⟩ := h1 hfit
    rw [he]
    rfl

/-- Witness of C15: with the capacity 1024 of a `TPM2B_MAX_BUFFER`, 8192 bits
(1024 bytes) fail with SHA-1, which needs 52 blocks, 1040 bytes, and succeed
with SHA-256, which needs 32 blocks, 1024 bytes. -/
theorem kdfa_success_iff_blocks_fit_witness :
    8192 / 8 ≤ (ideal_host false 1024 toy_mac).capacity
    ∧ blocks_needed (8192 / 8) EVP_MD.sha1.size = 52
    ∧ (tpm_kdfa (ideal_host false 1024 toy_mac) 52 TPM2_ALG_SHA1 [] [] [] [] 8192
        { size := 0, buffer := [] }).rval = some TSS2_RC.TSS2_SYS_RC_BAD_VALUE
    ∧ (tpm_kdfa (ideal_host false 1024 toy_mac) 52 TPM2_ALG_SHA256 [] [] [] [] 8192
        { size := 0, buffer := [] }).rval = some TSS2_RC.TPM2_RC_SUCCESS :=
  ⟨by decide, by decide,
    (kdfa_success_iff_blocks_fit (ideal_host false 1024 toy_mac) (ideal_host_all_ok _ _ _)
      (ideal_host_digest_sized _ _ _ toy_mac_length) 52 TPM2_ALG_SHA1 EVP_MD.sha1 [] [] [] []
      8192 { size := 0, buffer := [] } (by decide) (by decide) (by decide)).2 (by decide),
    (kdfa_success_iff_blocks_fit (ideal_host false 1024 toy_mac) (ideal_host_all_ok _ _ _)
      (ideal_host_digest_sized _ _ _ toy_mac_length) 52 TPM2_ALG_SHA256 EVP_MD.sha256 [] []
      [] [] 8192 { size := 0, buffer := [] } (by decide) (by decide) (by decide)).1.mpr
      (by decide)⟩

/-! ## C16: requests of fewer than 8 bits -/

/-- C16. Sub-byte and zero requests are accepted: with a supported digest, a label
that fits and successful allocation and initialisation, every `bits` below 8
(0 included) makes `tpm_kdfa` return success with an output of size 0 after
the allocation, the initialisation and the release only: no `HMAC_Update`, no
`HMAC_Final`; whatever the fuel. -/
theorem kdfa_sub_byte_request (P : Host) (fuel hashAlg : Nat) (md : EVP_MD)
    (key label cU cV : List Nat) (bits : Nat) (rk0 : TPM2B)
    (hlabel : label_size label ≤ TPM2B_DIGEST_BUFFER)
    (hmd : tpm_algorithm_to_openssl_digest hashAlg = some md)
    (ha : P.hmacOk [HmacCall.HMAC_CTX_new] = true)
    (hi : P.hmacOk [HmacCall.HMAC_CTX_new, HmacCall.HMAC_Init_ex key md] = true)
    (hbits : bits < 8) :
    tpm_kdfa P fuel hashAlg key label cU cV bits rk0
      = Outcome.returned TSS2_RC.TPM2_RC_SUCCESS { size := 0, buffer := rk0.buffer }
          [HmacCall.HMAC_CTX_new, HmacCall.HMAC_Init_ex key md, HmacCall.HMAC_CTX_free] := by
  have hb : bits / 8 = 0 := by omega
  rw [tpm_kdfa_in_loop P fuel hashAlg md key label cU cV bits rk0 hlabel hmd ha hi, hb,
    kdfa_while_done _ _ _ _ _ _ _ _ (by simp)]
  rfl

/-- Witness of C16: 0 bits with SHA-384 and no fuel. -/
theorem kdfa_sub_byte_request_witness :
    tpm_kdfa (ideal_host true 1024 toy_mac) 0 TPM2_ALG_SHA384 [1, 2] [65, 84, 72] [5] [6] 0
        { size := 2, buffer := [8, 9] }
      = Outcome.returned TSS2_RC.TPM2_RC_SUCCESS { size := 0, buffer := [8, 9] }
          [HmacCall.HMAC_CTX_new, HmacCall.HMAC_Init_ex [1, 2] EVP_MD.sha384,
            HmacCall.HMAC_CTX_free] :=
  kdfa_sub_byte_request (ideal_host true 1024 toy_mac) 0 TPM2_ALG_SHA384 EVP_MD.sha384
    [1, 2] [65, 84, 72] [5] [6] 0 { size := 2, buffer := [8, 9] } (by decide) (by decide)
    (by decide) (by decide) (by decide)

/-! ## C17: termination of the loop -/

/-- From a state within the capacity, `(C - size) / L + 1` iterations are
enough for the loop to reach an exit. -/
theorem kdfa_while_enough (P : Host) (hP : P.digest_sized) (lab cU cV bb : List Nat)
    (bytes : Nat) (key : List Nat) (md : EVP_MD) :
    ∀ (fuel : Nat) (s : LoopState), last_init s.log = some (key, md) →
      s.resultKey.size ≤ P.capacity →
      (P.capacity - s.resultKey.size) / md.size + 1 ≤ fuel →
      ∃ st, kdfa_while P lab cU cV bb bytes fuel s = some st := by
  intro fuel
  induction fuel with
  | zero =>
    intro s _ _ hf
    exact absurd hf (Nat.not_succ_le_zero _)
  | succ n ih =>
    intro s hi hc hf
    by_cases hlt : s.resultKey.size < bytes
    · cases hb : loop_body P lab cU cV bb s with
      | next s1 =>
        obtain ⟨hi1, hsz⟩ := loop_body_next_size P hP lab cU cV bb key md s s1 hi hb
        have hc1 := (loop_body_next_state P lab cU cV bb s s1 hb).2.2.2.2.1
        have hf1 : (P.capacity - s1.resultKey.size) / md.size + 1 ≤ n := by
          rw [hsz] at hc1 ⊢
          cases md <;> simp only [EVP_MD.size] at hf hc1 ⊢ <;> omega
        simp only [kdfa_while, hlt, if_true, hb]
        exact ih s1 hi1 hc1 hf1
      | err r s1 =>
        exact ⟨Step.err r s1, by simp only [kdfa_while, hlt, if_true, hb]⟩
    · exact ⟨Step.next s, by simp only [kdfa_while, hlt, if_false]⟩

/-- C17. The derivation loop terminates: with a supported digest whose
`HMAC_Final` yields `L` bytes and capacity `C`, every iteration either leaves
through `goto err` or increases the accumulated length by exactly `L`; at
most `C / L` iterations complete; and `tpm_kdfa` returns within `C / L + 1`
iterations for every `bits`: more fuel gives the same result. -/
theorem kdfa_loop_terminates (P : Host) (hP : P.digest_sized) (fuel hashAlg : Nat)
    (md : EVP_MD) (key label cU cV : List Nat) (bits : Nat) (rk0 : TPM2B)
    (hlabel : label_size label ≤ TPM2B_DIGEST_BUFFER)
    (hmd : tpm_algorithm_to_openssl_digest hashAlg = some md)
    (hfuel : P.capacity / md.size + 1 ≤ fuel) :
    (∃ rval rk log, tpm_kdfa P (P.capacity / md.size + 1) hashAlg key label cU cV bits rk0
        = Outcome.returned rval rk log)
    ∧ tpm_kdfa P fuel hashAlg key label cU cV bits rk0
        = tpm_kdfa P (P.capacity / md.size + 1) hashAlg key label cU cV bits rk0
    ∧ (∀ (k : Nat) (s : LoopState),
        loop_state_after P (label_copy label) cU cV (swizzled_bytes P bits) (bits / 8) k
            (loop_entry key md rk0) = some s →
        k ≤ P.capacity / md.size
          ∧ s.resultKey.size = k * md.size
          ∧ ((∃ r s1, loop_body P (label_copy label) cU cV (swizzled_bytes P bits) s
                = Step.err r s1)
            ∨ ∃ s1, loop_body P (label_copy label) cU cV (swizzled_bytes P bits) s
                = Step.next s1
              ∧ s1.resultKey.size = s.resultKey.size + md.size)) := by
  have hL := EVP_MD.size_pos md
  have hstates : ∀ (k : Nat) (s : LoopState),
      loop_state_after P (label_copy label) cU cV (swizzled_bytes P bits) (bits / 8) k
          (loop_entry key md rk0) = some s →
      last_init s.log = some (key, md) ∧ s.resultKey.size = k * md.size
        ∧ s.resultKey.size ≤ P.capacity := by
    intro k s hs
    obtain ⟨h1, h2⟩ := loop_state_after_size P hP _ _ _ _ _ key md k
      (loop_entry key md rk0) s rfl hs
    have h3 := loop_state_after_rule P _ _ _ _ _ (fun s => s.resultKey.size ≤ P.capacity)
      (fun s s1 _ _ hb => (loop_body_next_state _ _ _ _ _ _ _ hb).2.2.2.2.1)
      k (loop_entry key md rk0) s (Nat.zero_le _) hs
    have hsz0 : (loop_entry key md rk0).resultKey.size = 0 := rfl
    rw [hsz0, Nat.zero_add] at h2
    exact ⟨h1, h2, h3⟩
  have hwhile : ∃ st, kdfa_while P (label_copy label) cU cV (swizzled_bytes P bits) (bits / 8)
      (P.capacity / md.size + 1) (loop_entry key md rk0) = some st :=
    kdfa_while_enough P hP _ _ _ _ _ key md _ (loop_entry key md rk0) rfl (Nat.zero_le _)
      (by simp [loop_entry])
  refine ⟨?_, ?_, ?_⟩
  · cases ha : P.hmacOk [HmacCall.HMAC_CTX_new] with
    | false =>
      simp only [tpm_kdfa, if_neg (Nat.not_lt.mpr hlabel), hmd, ha, Bool.not_false, if_true]
      exact ⟨_, _, _, rfl⟩
    | true =>
      cases hi : P.hmacOk [HmacCall.HMAC_CTX_new, HmacCall.HMAC_Init_ex key md] with
      | false =>
        simp only [tpm_kdfa, if_neg (Nat.not_lt.mpr hlabel), hmd, ha, Bool.not_true,
          Bool.false_eq_true, if_false, List.singleton_append, hi, Bool.not_false, if_true]
        exact ⟨_, _, _, rfl⟩
      | true =>
        obtain ⟨st, hst⟩ := hwhile
        rw [tpm_kdfa_in_loop P _ hashAlg md key label cU cV bits rk0 hlabel hmd ha hi, hst]
        cases st with
        | next s => exact ⟨_, _, _, rfl⟩
        | err r s => exact ⟨_, _, _, rfl⟩
  · cases ha : P.hmacOk [HmacCall.HMAC_CTX_new] with
    | false =>
      simp only [tpm_kdfa, if_neg (Nat.not_lt.mpr hlabel), hmd, ha, Bool.not_false, if_true]
    | true =>
      cases hi : P.hmacOk [HmacCall.HMAC_CTX_new, HmacCall.HMAC_Init_ex key md] with
      | false =>
        simp only [tpm_kdfa, if_neg (Nat.not_lt.mpr hlabel), hmd, ha, Bool.not_true,
          Bool.false_eq_true, if_false, List.singleton_append, hi, Bool.not_false, if_true]
      | true =>
        obtain ⟨st, hst⟩ := hwhile
        obtain ⟨d, rfl⟩ : ∃ d, fuel = P.capacity / md.size + 1 + d :=
          ⟨fuel - (P.capacity / md.size + 1), by omega⟩
        rw [tpm_kdfa_in_loop P _ hashAlg md key label cU cV bits rk0 hlabel hmd ha hi,
          tpm_kdfa_in_loop P _ hashAlg md key label cU cV bits rk0 hlabel hmd ha hi,
          kdfa_while_mono _ _ _ _ _ _ _ d _ st hst, hst]
  · intro k s hs
    obtain ⟨hi, hsz, hc⟩ := hstates k s hs
    refine ⟨?_, hsz, ?_⟩
    · rw [Nat.le_div_iff_mul_le hL, ← hsz]
      exact hc
    · cases hb : loop_body P (label_copy label) cU cV (swizzled_bytes P bits) s with
      | next s1 =>
        right
        exact ⟨s1, rfl, (loop_body_next_size P hP _ _ _ _ key md s s1 hi hb).2⟩
      | err r s1 =>
        left
        exact ⟨r, s1, rfl⟩

/-- Witness of C17: SHA-512 with a capacity of 128 bytes and the largest 16-bit
request; three iterations are allowed and the call returns. -/
theorem kdfa_loop_terminates_witness :
    (∃ rval rk log, tpm_kdfa (ideal_host false 128 toy_mac) (128 / EVP_MD.sha512.size + 1)
        TPM2_ALG_SHA512 [] [] [] [] 65535 { size := 0, buffer := [] }
      = Outcome.returned rval rk log)
    ∧ (tpm_kdfa (ideal_host false 128 toy_mac) 3 TPM2_ALG_SHA512 [] [] [] [] 65535
        { size := 0, buffer := [] }).rval = some TSS2_RC.TSS2_SYS_RC_BAD_VALUE :=
  ⟨(kdfa_loop_terminates (ideal_host false 128 toy_mac)
      (ideal_host_digest_sized _ _ _ toy_mac_length) 3 TPM2_ALG_SHA512 EVP_MD.sha512 [] []
      [] [] 65535 { size := 0, buffer := [] } (by decide) (by decide) (by decide)).1,
    by decide⟩

end TpmKdfa
